import Mathlib

/-!
Verification of the filter query-language core of youtube-search-plus
(src/filters.ts): buildQueryString, parseQueryFilters, stripOperators,
csvEscape and buildPreviewLines, embedded shallowly over List Char.
Query strings are lists of characters; filter ids and labels are Lean
String values, matching the TypeScript string ids.

The scanning functions consume at least one character per step, so each
is defined by structural recursion on a fuel argument initialised with
the input length; this keeps every definition kernel-computable.  Fuel
is semantically inert: the unfolding lemmas proved below recover the
natural one-step equations of each scan, and all reasoning uses those.
-/

set_option maxHeartbeats 1000000
set_option maxRecDepth 8000

/-- Whitespace as JavaScript's regex class \s and String.prototype.trim
recognize it: space, tab, LF, VT, FF, CR, NBSP, and the Unicode space
separators, line/paragraph separators and BOM. -/
def jsWS (c : Char) : Bool :=
  c = ' ' || c = '\t' || c = '\n' || c.val = 11 || c.val = 12 || c = '\r' ||
  c.val = 0xA0 || c.val = 0x1680 || (0x2000 ≤ c.val && c.val ≤ 0x200A) ||
  c.val = 0x2028 || c.val = 0x2029 || c.val = 0x202F || c.val = 0x205F ||
  c.val = 0x3000 || c.val = 0xFEFF

/-- A non-whitespace character (regex \S). -/
def nonWS (c : Char) : Bool := !jsWS c

/-- JavaScript String.prototype.trim: drop whitespace from both ends. -/
def jsTrim (l : List Char) : List Char :=
  ((l.dropWhile jsWS).reverse.dropWhile jsWS).reverse

theorem dropWhile_length_le (p : Char → Bool) (l : List Char) :
    (l.dropWhile p).length ≤ l.length :=
  (List.dropWhile_suffix p).sublist.length_le

/-- JavaScript val.split(/\s+/) on an already trimmed val, fuelled:
maximal runs of non-whitespace characters, in order. -/
def splitWSF : Nat → List Char → List (List Char)
  | _, [] => []
  | 0, _ :: _ => []
  | fuel + 1, c :: cs =>
    if jsWS c then splitWSF fuel cs
    else (c :: cs.takeWhile nonWS) :: splitWSF fuel (cs.dropWhile nonWS)

/-- JavaScript val.split(/\s+/) for an already trimmed val. -/
def splitWS (l : List Char) : List (List Char) := splitWSF l.length l

/-- JavaScript Array.prototype.join(" "). -/
def joinSpace : List (List Char) → List Char
  | [] => []
  | [p] => p
  | p :: ps => p ++ ' ' :: joinSpace ps

-- ─── Data model (src/filters.ts) ────────────────────────────────────

/-- One entry of the TEXT_FILTERS catalog; the fields the core functions
read (id, label, type, operator). -/
structure TextFilterConfig where
  id : String
  label : String
  type : String
  operator : List Char
deriving DecidableEq

/-- The operator token of each prefix filter, as a character list. -/
def afterTok : List Char := "after:".data

def beforeTok : List Char := "before:".data

def intitleTok : List Char := "intitle:".data

def channelTok : List Char := "channel:".data

def hashTok : List Char := "#".data

/-- The static filter catalog TEXT_FILTERS of src/filters.ts, in source
order. -/
def TEXT_FILTERS : List TextFilterConfig := [
  ⟨"after", "After", "date", afterTok⟩,
  ⟨"before", "Before", "date", beforeTok⟩,
  ⟨"intitle", "In Title", "text", intitleTok⟩,
  ⟨"exact", "Exact Phrase", "text", "\"".data⟩,
  ⟨"exclude", "Exclude", "text", "-".data⟩,
  ⟨"channel", "Boost Channel", "text", channelTok⟩,
  ⟨"hashtag", "Hashtag", "text", hashTok⟩]

/-- ActiveTextFilter of src/filters.ts: a filter id with a user value. -/
structure ActiveTextFilter where
  id : String
  value : List Char
deriving DecidableEq

-- ─── buildQueryString (src/filters.ts lines 139-164) ────────────────

/-- The tokens one catalog entry contributes: the switch body of
buildQueryString for a found config and non-empty trimmed value. -/
def renderParts (config : TextFilterConfig) (val : List Char) : List (List Char) :=
  if config.id = "exact" then [['"'] ++ val ++ ['"']]
  else if config.id = "exclude" then (splitWS val).map (fun w => '-' :: w)
  else if config.id = "hashtag" then ['#' :: val]
  else [config.operator ++ val]

/-- The parts array buildQueryString accumulates over its input loop:
unknown ids and whitespace-only values contribute nothing. -/
def buildParts : List ActiveTextFilter → List (List Char)
  | [] => []
  | f :: fs =>
    match TEXT_FILTERS.find? (fun c => c.id = f.id) with
    | none => buildParts fs
    | some config =>
      if jsTrim f.value = [] then buildParts fs
      else renderParts config (jsTrim f.value) ++ buildParts fs

/-- buildQueryString of src/filters.ts: render each filter and join the
collected parts with single spaces. -/
def buildQueryString (filters : List ActiveTextFilter) : List Char :=
  joinSpace (buildParts filters)

-- ─── parseQueryFilters (src/filters.ts lines 168-201) ───────────────

/-- One attempt of the regex tok(\S+) at the start of s: succeeds when tok
is a literal prefix and a non-whitespace character follows, capturing the
maximal non-whitespace run after tok. -/
def tokMatchAt (tok s : List Char) : Option (List Char) :=
  if tok.isPrefixOf s then
    match s.drop tok.length with
    | [] => none
    | d :: ds => if jsWS d then none else some (d :: ds.takeWhile nonWS)
  else none

/-- query.match(/tok(\S+)/): the leftmost match of tok followed by a
non-whitespace run, scanning position by position. -/
def firstTokMatch (tok : List Char) : List Char → Option (List Char)
  | [] => none
  | c :: cs =>
    match tokMatchAt tok (c :: cs) with
    | some v => some v
    | none => firstTokMatch tok cs

/-- query.match(/"([^"]+)"/g) with the quotes stripped from each match,
fuelled: a quote followed by a non-empty quote-free run and a closing
quote yields the run; on failure the scan advances one character, as the
regex engine does. -/
def quotedSpansF : Nat → List Char → List (List Char)
  | _, [] => []
  | 0, _ :: _ => []
  | fuel + 1, c :: cs =>
    if c = '"' then
      if cs.takeWhile (fun d => !(d = '"')) ≠ [] ∧
          cs.dropWhile (fun d => !(d = '"')) ≠ [] then
        cs.takeWhile (fun d => !(d = '"')) ::
          quotedSpansF fuel (cs.dropWhile (fun d => !(d = '"'))).tail
      else quotedSpansF fuel cs
    else quotedSpansF fuel cs

/-- query.match(/"([^"]+)"/g), quotes stripped from each match. -/
def quotedSpans (l : List Char) : List (List Char) := quotedSpansF l.length l

/-- query.match(/(?:^|\s)-(\S+)/g) reduced to the captured words in order,
fuelled: the first flag is true only at position 0, where the ^
alternative lets a leading dash match; elsewhere the dash must be
preceded by a whitespace character, which the match consumes.  Each word
is the full match trimmed and with its leading dash removed, which is
exactly the captured non-whitespace run after the dash. -/
def dashWordsF : Nat → Bool → List Char → List (List Char)
  | _, _, [] => []
  | 0, _, _ :: _ => []
  | fuel + 1, first, c :: cs =>
    if first ∧ c = '-' ∧ cs.takeWhile nonWS ≠ [] then
      cs.takeWhile nonWS :: dashWordsF fuel false (cs.dropWhile nonWS)
    else if jsWS c ∧ cs.head? = some '-' ∧ cs.tail.takeWhile nonWS ≠ [] then
      cs.tail.takeWhile nonWS :: dashWordsF fuel false (cs.tail.dropWhile nonWS)
    else dashWordsF fuel false cs

/-- The captured words of query.match(/(?:^|\s)-(\S+)/g). -/
def dashWords (first : Bool) (l : List Char) : List (List Char) :=
  dashWordsF l.length first l

/-- parseQueryFilters of src/filters.ts: scan the query with each operator
rule in the source's fixed order and collect the entries. -/
def parseQueryFilters (q : List Char) : List ActiveTextFilter :=
  (match firstTokMatch afterTok q with
   | some v => [⟨"after", v⟩]
   | none => []) ++
  (match firstTokMatch beforeTok q with
   | some v => [⟨"before", v⟩]
   | none => []) ++
  (match firstTokMatch intitleTok q with
   | some v => [⟨"intitle", v⟩]
   | none => []) ++
  (quotedSpans q).map (fun run => ⟨"exact", run⟩) ++
  (match dashWords true q with
   | [] => []
   | words => [⟨"exclude", joinSpace words⟩]) ++
  (match firstTokMatch channelTok q with
   | some v => [⟨"channel", v⟩]
   | none => []) ++
  (match firstTokMatch hashTok q with
   | some v => [⟨"hashtag", v⟩]
   | none => [])

-- ─── stripOperators (src/filters.ts lines 209-220) ──────────────────

/-- query.replace(/tok\S+/g, ""), fuelled: remove every match of the
literal token followed by a non-whitespace run, scanning left to right
and resuming after each removed match. -/
def replTokF (tok : List Char) : Nat → List Char → List Char
  | _, [] => []
  | 0, l => l
  | fuel + 1, c :: cs =>
    match tokMatchAt tok (c :: cs) with
    | some v => replTokF tok fuel ((c :: cs).drop (tok.length + v.length))
    | none => c :: replTokF tok fuel cs

/-- query.replace(/tok\S+/g, ""). -/
def replTok (tok l : List Char) : List Char := replTokF tok l.length l

/-- query.replace(/"[^"]+"/g, ""), fuelled: remove every quoted span with
non-empty quote-free contents; on failure the scan keeps the character
and advances. -/
def replQuotedF : Nat → List Char → List Char
  | _, [] => []
  | 0, l => l
  | fuel + 1, c :: cs =>
    if c = '"' then
      if cs.takeWhile (fun d => !(d = '"')) ≠ [] ∧
          cs.dropWhile (fun d => !(d = '"')) ≠ [] then
        replQuotedF fuel (cs.dropWhile (fun d => !(d = '"'))).tail
      else c :: replQuotedF fuel cs
    else c :: replQuotedF fuel cs

/-- query.replace(/"[^"]+"/g, ""). -/
def replQuoted (l : List Char) : List Char := replQuotedF l.length l

/-- query.replace(/(?:^|\s)-\S+/g, ""), fuelled: remove every dash token
at the string start or after a whitespace character, the whitespace
included in the removed match. -/
def replDashF : Nat → Bool → List Char → List Char
  | _, _, [] => []
  | 0, _, l => l
  | fuel + 1, first, c :: cs =>
    if first ∧ c = '-' ∧ cs.takeWhile nonWS ≠ [] then
      replDashF fuel false (cs.dropWhile nonWS)
    else if jsWS c ∧ cs.head? = some '-' ∧ cs.tail.takeWhile nonWS ≠ [] then
      replDashF fuel false (cs.tail.dropWhile nonWS)
    else c :: replDashF fuel false cs

/-- query.replace(/(?:^|\s)-\S+/g, ""). -/
def replDash (first : Bool) (l : List Char) : List Char :=
  replDashF l.length first l

/-- query.replace(/\s+/g, " "), fuelled: collapse every whitespace run to
one space. -/
def collapseWSF : Nat → List Char → List Char
  | _, [] => []
  | 0, l => l
  | fuel + 1, c :: cs =>
    if jsWS c then ' ' :: collapseWSF fuel (cs.dropWhile jsWS)
    else c :: collapseWSF fuel cs

/-- query.replace(/\s+/g, " "). -/
def collapseWS (l : List Char) : List Char := collapseWSF l.length l

/-- stripOperators of src/filters.ts: the seven removal passes in source
order, then whitespace normalization and trim. -/
def stripOperators (q : List Char) : List Char :=
  jsTrim (collapseWS (replDash true (replTok hashTok (replTok channelTok
    (replQuoted (replTok intitleTok (replTok beforeTok (replTok afterTok q))))))))

-- ─── csvEscape (src/filters.ts lines 228-238) ───────────────────────

/-- value.replace(/"/g, a doubled quote): double every double-quote. -/
def doubleQuotes (v : List Char) : List Char :=
  v.flatMap (fun c => if c = '"' then ['"', '"'] else [c])

/-- csvEscape of src/filters.ts: wrap in double quotes and double inner
quotes when the value holds a comma, quote, LF or CR. -/
def csvEscape (v : List Char) : List Char :=
  if v.contains ',' || v.contains '"' || v.contains '\n' || v.contains '\r' then
    '"' :: doubleQuotes v ++ ['"']
  else v

-- ─── buildPreviewLines (src/filters.ts lines 248-324) ───────────────

/-- PreviewLine of src/filters.ts. -/
structure PreviewLine where
  connector : String
  label : String
  value : List Char
deriving DecidableEq

/-- One iteration of the buildPreviewLines loop: the lines pushed for one
filter, appended to the accumulator. -/
def previewStep (lines : List PreviewLine) (f : ActiveTextFilter) : List PreviewLine :=
  match TEXT_FILTERS.find? (fun c => c.id = f.id) with
  | none => lines
  | some config =>
    if jsTrim f.value = [] then lines
    else
      let val := jsTrim f.value
      let conn : String := if lines.length = 0 then "" else "AND"
      if config.id = "exact" then
        lines ++ [⟨conn, "Exact", '"' :: val ++ ['"']⟩]
      else if config.id = "exclude" then
        lines ++ (splitWS val).map (fun w => ⟨"NOT", "Exclude", w⟩)
      else if config.id = "after" then lines ++ [⟨conn, "After", val⟩]
      else if config.id = "before" then lines ++ [⟨conn, "Before", val⟩]
      else if config.id = "intitle" then lines ++ [⟨conn, "In Title", val⟩]
      else if config.id = "channel" then lines ++ [⟨conn, "Boost Channel", val⟩]
      else if config.id = "hashtag" then lines ++ [⟨conn, "Hashtag", '#' :: val⟩]
      else lines

/-- buildPreviewLines of src/filters.ts; the excludeShorts flag models
options?.excludeShorts being true. -/
def buildPreviewLines (filters : List ActiveTextFilter) (excludeShorts : Bool) :
    List PreviewLine :=
  (filters.foldl previewStep []) ++
    (if excludeShorts then [⟨"NOT", "Shorts", []⟩] else [])

-- ─── Fuel irrelevance and unfolding equations ───────────────────────

theorem splitWSF_congr : ∀ (f1 f2 : Nat) (l : List Char), l.length ≤ f1 →
    l.length ≤ f2 → splitWSF f1 l = splitWSF f2 l := by
  intro f1
  induction f1 with
  | zero =>
    intro f2 l h1 _
    cases l with
    | nil => cases f2 <;> rfl
    | cons c cs => simp at h1
  | succ f ih =>
    intro f2 l h1 h2
    cases l with
    | nil => cases f2 <;> rfl
    | cons c cs =>
      cases f2 with
      | zero => simp at h2
      | succ g =>
        simp only [splitWSF]
        simp only [List.length_cons] at h1 h2
        by_cases hc : jsWS c
        · rw [if_pos hc, if_pos hc, ih g cs (by omega) (by omega)]
        · rw [if_neg hc, if_neg hc,
            ih g (cs.dropWhile nonWS)
              (le_trans (dropWhile_length_le nonWS cs) (by omega))
              (le_trans (dropWhile_length_le nonWS cs) (by omega))]

theorem splitWS_nil : splitWS [] = [] := rfl

theorem splitWS_cons (c : Char) (cs : List Char) :
    splitWS (c :: cs) =
      if jsWS c then splitWS cs
      else (c :: cs.takeWhile nonWS) :: splitWS (cs.dropWhile nonWS) := by
  show splitWSF (cs.length + 1) (c :: cs) = _
  simp only [splitWSF]
  by_cases hc : jsWS c
  · rw [if_pos hc, if_pos hc]
    exact splitWSF_congr _ _ cs (by omega) le_rfl
  · rw [if_neg hc, if_neg hc]
    rw [splitWSF_congr cs.length (cs.dropWhile nonWS).length (cs.dropWhile nonWS)
      (dropWhile_length_le nonWS cs) le_rfl]
    rfl

theorem tokMatchAt_some (tok s v : List Char) (h : tokMatchAt tok s = some v) :
    tok.isPrefixOf s = true ∧ ∃ d ds, s.drop tok.length = d :: ds ∧
      jsWS d = false ∧ v = d :: ds.takeWhile nonWS := by
  unfold tokMatchAt at h
  split at h
  · rename_i hp
    split at h
    · simp at h
    · rename_i d ds hdds
      split at h
      · simp at h
      · rename_i hd
        exact ⟨hp, d, ds, hdds, by simpa using hd, by simpa using h.symm⟩
  · simp at h

theorem tokMatchAt_some_length (tok s v : List Char)
    (h : tokMatchAt tok s = some v) : 1 ≤ v.length := by
  obtain ⟨-, d, ds, -, -, hv⟩ := tokMatchAt_some tok s v h
  subst hv; simp

theorem quotedSpansF_congr : ∀ (f1 f2 : Nat) (l : List Char), l.length ≤ f1 →
    l.length ≤ f2 → quotedSpansF f1 l = quotedSpansF f2 l := by
  intro f1
  induction f1 with
  | zero =>
    intro f2 l h1 _
    cases l with
    | nil => cases f2 <;> rfl
    | cons c cs => simp at h1
  | succ f ih =>
    intro f2 l h1 h2
    cases l with
    | nil => cases f2 <;> rfl
    | cons c cs =>
      cases f2 with
      | zero => simp at h2
      | succ g =>
        simp only [quotedSpansF]
        simp only [List.length_cons] at h1 h2
        have hd := dropWhile_length_le (fun d => !(d = '"')) cs
        have ht := List.length_tail (cs.dropWhile (fun d => !(d = '"')))
        by_cases hc : c = '"'
        · rw [if_pos hc, if_pos hc]
          by_cases hr : cs.takeWhile (fun d => !(d = '"')) ≠ [] ∧
              cs.dropWhile (fun d => !(d = '"')) ≠ []
          · rw [if_pos hr, if_pos hr, ih g _ (by omega) (by omega)]
          · rw [if_neg hr, if_neg hr, ih g cs (by omega) (by omega)]
        · rw [if_neg hc, if_neg hc, ih g cs (by omega) (by omega)]

theorem quotedSpans_nil : quotedSpans [] = [] := rfl

theorem quotedSpans_cons (c : Char) (cs : List Char) :
    quotedSpans (c :: cs) =
      if c = '"' then
        if cs.takeWhile (fun d => !(d = '"')) ≠ [] ∧
            cs.dropWhile (fun d => !(d = '"')) ≠ [] then
          cs.takeWhile (fun d => !(d = '"')) ::
            quotedSpans (cs.dropWhile (fun d => !(d = '"'))).tail
        else quotedSpans cs
      else quotedSpans cs := by
  show quotedSpansF (cs.length + 1) (c :: cs) = _
  simp only [quotedSpansF]
  have hd := dropWhile_length_le (fun d => !(d = '"')) cs
  have ht := List.length_tail (cs.dropWhile (fun d => !(d = '"')))
  by_cases hc : c = '"'
  · rw [if_pos hc, if_pos hc]
    by_cases hr : cs.takeWhile (fun d => !(d = '"')) ≠ [] ∧
        cs.dropWhile (fun d => !(d = '"')) ≠ []
    · rw [if_pos hr, if_pos hr,
        quotedSpansF_congr cs.length _ _ (by omega) le_rfl]
      rfl
    · rw [if_neg hr, if_neg hr, quotedSpansF_congr cs.length _ cs (by omega) le_rfl]
      rfl
  · rw [if_neg hc, if_neg hc, quotedSpansF_congr cs.length _ cs (by omega) le_rfl]
    rfl

theorem dashWordsF_congr : ∀ (f1 f2 : Nat) (b : Bool) (l : List Char),
    l.length ≤ f1 → l.length ≤ f2 → dashWordsF f1 b l = dashWordsF f2 b l := by
  intro f1
  induction f1 with
  | zero =>
    intro f2 b l h1 _
    cases l with
    | nil => cases f2 <;> rfl
    | cons c cs => simp at h1
  | succ f ih =>
    intro f2 b l h1 h2
    cases l with
    | nil => cases f2 <;> rfl
    | cons c cs =>
      cases f2 with
      | zero => simp at h2
      | succ g =>
        simp only [dashWordsF]
        simp only [List.length_cons] at h1 h2
        have hd1 := dropWhile_length_le nonWS cs
        have hd2 := dropWhile_length_le nonWS cs.tail
        have ht := List.length_tail cs
        by_cases ha : b = true ∧ c = '-' ∧ cs.takeWhile nonWS ≠ []
        · rw [if_pos ha, if_pos ha, ih g false _ (by omega) (by omega)]
        · rw [if_neg ha, if_neg ha]
          by_cases hb : jsWS c ∧ cs.head? = some '-' ∧ cs.tail.takeWhile nonWS ≠ []
          · rw [if_pos hb, if_pos hb, ih g false _ (by omega) (by omega)]
          · rw [if_neg hb, if_neg hb, ih g false cs (by omega) (by omega)]

theorem dashWords_nil (b : Bool) : dashWords b [] = [] := rfl

theorem dashWords_cons (b : Bool) (c : Char) (cs : List Char) :
    dashWords b (c :: cs) =
      if b = true ∧ c = '-' ∧ cs.takeWhile nonWS ≠ [] then
        cs.takeWhile nonWS :: dashWords false (cs.dropWhile nonWS)
      else if jsWS c ∧ cs.head? = some '-' ∧ cs.tail.takeWhile nonWS ≠ [] then
        cs.tail.takeWhile nonWS :: dashWords false (cs.tail.dropWhile nonWS)
      else dashWords false cs := by
  show dashWordsF (cs.length + 1) b (c :: cs) = _
  simp only [dashWordsF]
  have hd1 := dropWhile_length_le nonWS cs
  have hd2 := dropWhile_length_le nonWS cs.tail
  have ht := List.length_tail cs
  by_cases ha : b = true ∧ c = '-' ∧ cs.takeWhile nonWS ≠ []
  · rw [if_pos ha, if_pos ha, dashWordsF_congr cs.length _ false _ (by omega) le_rfl]
    rfl
  · rw [if_neg ha, if_neg ha]
    by_cases hb : jsWS c ∧ cs.head? = some '-' ∧ cs.tail.takeWhile nonWS ≠ []
    · rw [if_pos hb, if_pos hb, dashWordsF_congr cs.length _ false _ (by omega) le_rfl]
      rfl
    · rw [if_neg hb, if_neg hb, dashWordsF_congr cs.length _ false cs (by omega) le_rfl]
      rfl

theorem replTokF_congr (tok : List Char) : ∀ (f1 f2 : Nat) (l : List Char),
    l.length ≤ f1 → l.length ≤ f2 → replTokF tok f1 l = replTokF tok f2 l := by
  intro f1
  induction f1 with
  | zero =>
    intro f2 l h1 _
    cases l with
    | nil => cases f2 <;> rfl
    | cons c cs => simp at h1
  | succ f ih =>
    intro f2 l h1 h2
    cases l with
    | nil => cases f2 <;> rfl
    | cons c cs =>
      cases f2 with
      | zero => simp at h2
      | succ g =>
        simp only [replTokF]
        simp only [List.length_cons] at h1 h2
        cases hm : tokMatchAt tok (c :: cs) with
        | some v =>
          have hv := tokMatchAt_some_length tok _ v hm
          have hdl := List.length_drop (tok.length + v.length) (c :: cs)
          simp only [List.length_cons] at hdl
          exact ih g _ (by omega) (by omega)
        | none => rw [ih g cs (by omega) (by omega)]

theorem replTok_nil (tok : List Char) : replTok tok [] = [] := rfl

theorem replTok_cons_some (tok : List Char) (c : Char) (cs v : List Char)
    (hm : tokMatchAt tok (c :: cs) = some v) :
    replTok tok (c :: cs) = replTok tok ((c :: cs).drop (tok.length + v.length)) := by
  show replTokF tok (cs.length + 1) (c :: cs) = _
  simp only [replTokF, hm]
  have hv := tokMatchAt_some_length tok _ v hm
  have hdl := List.length_drop (tok.length + v.length) (c :: cs)
  simp only [List.length_cons] at hdl
  exact replTokF_congr tok cs.length _ _ (by omega) le_rfl

theorem replTok_cons_none (tok : List Char) (c : Char) (cs : List Char)
    (hm : tokMatchAt tok (c :: cs) = none) :
    replTok tok (c :: cs) = c :: replTok tok cs := by
  show replTokF tok (cs.length + 1) (c :: cs) = _
  simp only [replTokF, hm]
  rfl

theorem replQuotedF_congr : ∀ (f1 f2 : Nat) (l : List Char), l.length ≤ f1 →
    l.length ≤ f2 → replQuotedF f1 l = replQuotedF f2 l := by
  intro f1
  induction f1 with
  | zero =>
    intro f2 l h1 _
    cases l with
    | nil => cases f2 <;> rfl
    | cons c cs => simp at h1
  | succ f ih =>
    intro f2 l h1 h2
    cases l with
    | nil => cases f2 <;> rfl
    | cons c cs =>
      cases f2 with
      | zero => simp at h2
      | succ g =>
        simp only [replQuotedF]
        simp only [List.length_cons] at h1 h2
        have hd := dropWhile_length_le (fun d => !(d = '"')) cs
        have ht := List.length_tail (cs.dropWhile (fun d => !(d = '"')))
        by_cases hc : c = '"'
        · rw [if_pos hc, if_pos hc]
          by_cases hr : cs.takeWhile (fun d => !(d = '"')) ≠ [] ∧
              cs.dropWhile (fun d => !(d = '"')) ≠ []
          · rw [if_pos hr, if_pos hr, ih g _ (by omega) (by omega)]
          · rw [if_neg hr, if_neg hr, ih g cs (by omega) (by omega)]
        · rw [if_neg hc, if_neg hc, ih g cs (by omega) (by omega)]

theorem replQuoted_nil : replQuoted [] = [] := rfl

theorem replQuoted_cons (c : Char) (cs : List Char) :
    replQuoted (c :: cs) =
      if c = '"' then
        if cs.takeWhile (fun d => !(d = '"')) ≠ [] ∧
            cs.dropWhile (fun d => !(d = '"')) ≠ [] then
          replQuoted (cs.dropWhile (fun d => !(d = '"'))).tail
        else c :: replQuoted cs
      else c :: replQuoted cs := by
  show replQuotedF (cs.length + 1) (c :: cs) = _
  simp only [replQuotedF]
  have hd := dropWhile_length_le (fun d => !(d = '"')) cs
  have ht := List.length_tail (cs.dropWhile (fun d => !(d = '"')))
  by_cases hc : c = '"'
  · rw [if_pos hc, if_pos hc]
    by_cases hr : cs.takeWhile (fun d => !(d = '"')) ≠ [] ∧
        cs.dropWhile (fun d => !(d = '"')) ≠ []
    · rw [if_pos hr, if_pos hr, replQuotedF_congr cs.length _ _ (by omega) le_rfl]
      rfl
    · rw [if_neg hr, if_neg hr, replQuotedF_congr cs.length _ cs (by omega) le_rfl]
      rfl
  · rw [if_neg hc, if_neg hc, replQuotedF_congr cs.length _ cs (by omega) le_rfl]
    rfl

theorem replDashF_congr : ∀ (f1 f2 : Nat) (b : Bool) (l : List Char),
    l.length ≤ f1 → l.length ≤ f2 → replDashF f1 b l = replDashF f2 b l := by
  intro f1
  induction f1 with
  | zero =>
    intro f2 b l h1 _
    cases l with
    | nil => cases f2 <;> rfl
    | cons c cs => simp at h1
  | succ f ih =>
    intro f2 b l h1 h2
    cases l with
    | nil => cases f2 <;> rfl
    | cons c cs =>
      cases f2 with
      | zero => simp at h2
      | succ g =>
        simp only [replDashF]
        simp only [List.length_cons] at h1 h2
        have hd1 := dropWhile_length_le nonWS cs
        have hd2 := dropWhile_length_le nonWS cs.tail
        have ht := List.length_tail cs
        by_cases ha : b = true ∧ c = '-' ∧ cs.takeWhile nonWS ≠ []
        · rw [if_pos ha, if_pos ha, ih g false _ (by omega) (by omega)]
        · rw [if_neg ha, if_neg ha]
          by_cases hb : jsWS c ∧ cs.head? = some '-' ∧ cs.tail.takeWhile nonWS ≠ []
          · rw [if_pos hb, if_pos hb, ih g false _ (by omega) (by omega)]
          · rw [if_neg hb, if_neg hb, ih g false cs (by omega) (by omega)]

theorem replDash_nil (b : Bool) : replDash b [] = [] := rfl

theorem replDash_cons (b : Bool) (c : Char) (cs : List Char) :
    replDash b (c :: cs) =
      if b = true ∧ c = '-' ∧ cs.takeWhile nonWS ≠ [] then
        replDash false (cs.dropWhile nonWS)
      else if jsWS c ∧ cs.head? = some '-' ∧ cs.tail.takeWhile nonWS ≠ [] then
        replDash false (cs.tail.dropWhile nonWS)
      else c :: replDash false cs := by
  show replDashF (cs.length + 1) b (c :: cs) = _
  simp only [replDashF]
  have hd1 := dropWhile_length_le nonWS cs
  have hd2 := dropWhile_length_le nonWS cs.tail
  have ht := List.length_tail cs
  by_cases ha : b = true ∧ c = '-' ∧ cs.takeWhile nonWS ≠ []
  · rw [if_pos ha, if_pos ha, replDashF_congr cs.length _ false _ (by omega) le_rfl]
    rfl
  · rw [if_neg ha, if_neg ha]
    by_cases hb : jsWS c ∧ cs.head? = some '-' ∧ cs.tail.takeWhile nonWS ≠ []
    · rw [if_pos hb, if_pos hb, replDashF_congr cs.length _ false _ (by omega) le_rfl]
      rfl
    · rw [if_neg hb, if_neg hb, replDashF_congr cs.length _ false cs (by omega) le_rfl]
      rfl

theorem collapseWSF_congr : ∀ (f1 f2 : Nat) (l : List Char), l.length ≤ f1 →
    l.length ≤ f2 → collapseWSF f1 l = collapseWSF f2 l := by
  intro f1
  induction f1 with
  | zero =>
    intro f2 l h1 _
    cases l with
    | nil => cases f2 <;> rfl
    | cons c cs => simp at h1
  | succ f ih =>
    intro f2 l h1 h2
    cases l with
    | nil => cases f2 <;> rfl
    | cons c cs =>
      cases f2 with
      | zero => simp at h2
      | succ g =>
        simp only [collapseWSF]
        simp only [List.length_cons] at h1 h2
        have hd := dropWhile_length_le jsWS cs
        by_cases hc : jsWS c
        · rw [if_pos hc, if_pos hc, ih g _ (by omega) (by omega)]
        · rw [if_neg hc, if_neg hc, ih g cs (by omega) (by omega)]

theorem collapseWS_nil : collapseWS [] = [] := rfl

theorem collapseWS_cons (c : Char) (cs : List Char) :
    collapseWS (c :: cs) =
      if jsWS c then ' ' :: collapseWS (cs.dropWhile jsWS)
      else c :: collapseWS cs := by
  show collapseWSF (cs.length + 1) (c :: cs) = _
  simp only [collapseWSF]
  have hd := dropWhile_length_le jsWS cs
  by_cases hc : jsWS c
  · rw [if_pos hc, if_pos hc, collapseWSF_congr cs.length _ _ (by omega) le_rfl]
    rfl
  · rw [if_neg hc, if_neg hc, collapseWSF_congr cs.length _ cs (by omega) le_rfl]
    rfl

-- ─── Basic whitespace and trim lemmas ───────────────────────────────

theorem dropWhile_head_false (p : Char → Bool) :
    ∀ (l : List Char) (c : Char) (r : List Char),
      l.dropWhile p = c :: r → p c = false := by
  intro l
  induction l with
  | nil => intro c r h; simp at h
  | cons a as ih =>
    intro c r h
    rw [List.dropWhile_cons] at h
    by_cases hp : p a
    · rw [if_pos hp] at h; exact ih c r h
    · rw [if_neg hp] at h
      injection h with h1 _
      rw [← h1]; simpa using hp

theorem dropWhile_eq_self_of_head (p : Char → Bool) (l : List Char)
    (h : ∀ c r, l = c :: r → p c = false) : l.dropWhile p = l := by
  cases l with
  | nil => rfl
  | cons c cs => rw [List.dropWhile_cons, if_neg (by simp [h c cs rfl])]

theorem jsTrim_prefix (l : List Char) : jsTrim l <+: l.dropWhile jsWS := by
  unfold jsTrim
  rw [show l.dropWhile jsWS = (l.dropWhile jsWS).reverse.reverse by simp]
  exact List.reverse_suffix.mp (by simpa using List.dropWhile_suffix jsWS)

theorem jsTrim_infix (l : List Char) : jsTrim l <:+: l :=
  (( jsTrim_prefix l).isInfix).trans (List.dropWhile_suffix jsWS).isInfix

theorem jsTrim_head_nonWS (l : List Char) (c : Char) (r : List Char)
    (h : jsTrim l = c :: r) : jsWS c = false := by
  obtain ⟨t, ht⟩ := jsTrim_prefix l
  rw [h] at ht
  exact dropWhile_head_false jsWS l c (r ++ t) (by rw [← ht]; simp)

theorem jsTrim_last_nonWS (l : List Char) (c : Char) (m : List Char)
    (h : jsTrim l = m ++ [c]) : jsWS c = false := by
  unfold jsTrim at h
  have hx : (l.dropWhile jsWS).reverse.dropWhile jsWS = c :: m.reverse := by
    have := congrArg List.reverse h
    simpa using this
  exact dropWhile_head_false jsWS _ c m.reverse hx

theorem jsTrim_eq_self (l : List Char) (h : ∀ c ∈ l, jsWS c = false) :
    jsTrim l = l := by
  unfold jsTrim
  have h1 : l.dropWhile jsWS = l :=
    dropWhile_eq_self_of_head _ _ (by intro c r hr; exact h c (by rw [hr]; simp))
  rw [h1]
  have h2 : l.reverse.dropWhile jsWS = l.reverse :=
    dropWhile_eq_self_of_head _ _ (by
      intro c r hr
      exact h c (by
        have : c ∈ l.reverse := by rw [hr]; simp
        simpa using this))
  rw [h2, List.reverse_reverse]

theorem jsTrim_idem (l : List Char) : jsTrim (jsTrim l) = jsTrim l := by
  cases hj : jsTrim l with
  | nil => rfl
  | cons c r =>
    unfold jsTrim
    have h1 : (c :: r).dropWhile jsWS = c :: r := by
      rw [List.dropWhile_cons, if_neg]
      simp [jsTrim_head_nonWS l c r hj]
    rw [h1]
    have h2 : (c :: r).reverse.dropWhile jsWS = (c :: r).reverse := by
      cases hrev : (c :: r).reverse with
      | nil => simp at hrev
      | cons d s =>
        rw [List.dropWhile_cons, if_neg]
        have hds : c :: r = s.reverse ++ [d] := by
          have := congrArg List.reverse hrev
          simpa using this
        rw [← hj] at hds
        simp [jsTrim_last_nonWS l d s.reverse hds]
    rw [h2, List.reverse_reverse]

theorem mem_jsTrim (l : List Char) (c : Char) (h : c ∈ jsTrim l) : c ∈ l :=
  ( jsTrim_infix l).sublist.mem h

theorem jsTrim_eq_nil_iff (l : List Char) :
    jsTrim l = [] ↔ ∀ c ∈ l, jsWS c = true := by
  constructor
  · intro h c hc
    by_contra hw
    have hcd : c ∈ l.dropWhile jsWS := by
      have hsplit := List.takeWhile_append_dropWhile jsWS l
      rw [← hsplit] at hc
      rcases List.mem_append.mp hc with h1 | h1
      · exact absurd (List.mem_takeWhile_imp h1) hw
      · exact h1
    unfold jsTrim at h
    have : (l.dropWhile jsWS).reverse.dropWhile jsWS = [] := by
      have := congrArg List.reverse h
      simpa using this
    have hall := List.dropWhile_eq_nil_iff.mp this
    exact hw (hall c (by simpa using hcd))
  · intro h
    unfold jsTrim
    rw [List.dropWhile_eq_nil_iff.mpr h]
    rfl

-- ─── C9: csvEscape ──────────────────────────────────────────────────

/-- C9: csvEscape returns its input unchanged (including the empty string)
when the input contains no comma, double-quote, line feed, or carriage
return; otherwise it returns the input with every double-quote doubled
and the whole result wrapped in double quotes. -/
theorem c9_csvEscape_spec (v : List Char) :
    ((',' ∉ v ∧ '"' ∉ v ∧ '\n' ∉ v ∧ '\r' ∉ v) → csvEscape v = v) ∧
    ((',' ∈ v ∨ '"' ∈ v ∨ '\n' ∈ v ∨ '\r' ∈ v) →
      csvEscape v = '"' :: doubleQuotes v ++ ['"']) := by
  constructor
  · intro h
    unfold csvEscape
    rw [if_neg]
    simp only [Bool.or_eq_true, List.elem_iff]
    tauto
  · intro h
    unfold csvEscape
    rw [if_pos]
    simp only [Bool.or_eq_true, List.elem_iff]
    tauto

-- ─── Catalog lookup ─────────────────────────────────────────────────

theorem find?_catalog (i : String) :
    TEXT_FILTERS.find? (fun c => c.id = i) =
      if "after" = i then some ⟨"after", "After", "date", afterTok⟩
      else if "before" = i then some ⟨"before", "Before", "date", beforeTok⟩
      else if "intitle" = i then some ⟨"intitle", "In Title", "text", intitleTok⟩
      else if "exact" = i then some ⟨"exact", "Exact Phrase", "text", "\"".data⟩
      else if "exclude" = i then some ⟨"exclude", "Exclude", "text", "-".data⟩
      else if "channel" = i then some ⟨"channel", "Boost Channel", "text", channelTok⟩
      else if "hashtag" = i then some ⟨"hashtag", "Hashtag", "text", hashTok⟩
      else none := by
  simp only [TEXT_FILTERS]
  by_cases h1 : "after" = i
  · rw [List.find?_cons_of_pos _ (by simpa using h1), if_pos h1]
  rw [List.find?_cons_of_neg _ (by simpa using h1), if_neg h1]
  by_cases h2 : "before" = i
  · rw [List.find?_cons_of_pos _ (by simpa using h2), if_pos h2]
  rw [List.find?_cons_of_neg _ (by simpa using h2), if_neg h2]
  by_cases h3 : "intitle" = i
  · rw [List.find?_cons_of_pos _ (by simpa using h3), if_pos h3]
  rw [List.find?_cons_of_neg _ (by simpa using h3), if_neg h3]
  by_cases h4 : "exact" = i
  · rw [List.find?_cons_of_pos _ (by simpa using h4), if_pos h4]
  rw [List.find?_cons_of_neg _ (by simpa using h4), if_neg h4]
  by_cases h5 : "exclude" = i
  · rw [List.find?_cons_of_pos _ (by simpa using h5), if_pos h5]
  rw [List.find?_cons_of_neg _ (by simpa using h5), if_neg h5]
  by_cases h6 : "channel" = i
  · rw [List.find?_cons_of_pos _ (by simpa using h6), if_pos h6]
  rw [List.find?_cons_of_neg _ (by simpa using h6), if_neg h6]
  by_cases h7 : "hashtag" = i
  · rw [List.find?_cons_of_pos _ (by simpa using h7), if_pos h7]
  rw [List.find?_cons_of_neg _ (by simpa using h7), if_neg h7]
  rfl

/-- An entry every core loop skips: unknown id or whitespace-only value. -/
def isInert (f : ActiveTextFilter) : Prop :=
  TEXT_FILTERS.find? (fun c => c.id = f.id) = none ∨ jsTrim f.value = []

theorem splitWS_ne_nil_of_trim (v : List Char) (h : jsTrim v ≠ []) :
    splitWS (jsTrim v) ≠ [] := by
  cases hj : jsTrim v with
  | nil => exact absurd hj h
  | cons c r =>
    rw [splitWS_cons, if_neg (by simp [jsTrim_head_nonWS v c r hj])]
    simp

theorem previewStep_inert (lines : List PreviewLine) (f : ActiveTextFilter)
    (h : isInert f) : previewStep lines f = lines := by
  unfold previewStep
  cases hfind : TEXT_FILTERS.find? (fun c => c.id = f.id) with
  | none => rfl
  | some config =>
    dsimp only
    rcases h with h | h
    · rw [hfind] at h; simp at h
    · rw [if_pos h]

theorem previewStep_exists_extra (lines : List PreviewLine) (f : ActiveTextFilter) :
    ∃ extra, previewStep lines f = lines ++ extra := by
  unfold previewStep
  cases TEXT_FILTERS.find? (fun c => c.id = f.id) with
  | none => exact ⟨[], by simp⟩
  | some config =>
    dsimp only
    by_cases ht : jsTrim f.value = []
    · rw [if_pos ht]; exact ⟨[], by simp⟩
    · rw [if_neg ht]
      repeat' split
      all_goals first
        | exact ⟨_, rfl⟩
        | exact ⟨[], by simp⟩

theorem foldl_previewStep_prefix :
    ∀ (fs : List ActiveTextFilter) (acc : List PreviewLine),
      acc <+: fs.foldl previewStep acc := by
  intro fs
  induction fs with
  | nil => intro acc; exact List.prefix_refl acc
  | cons f fs ih =>
    intro acc
    rw [List.foldl_cons]
    obtain ⟨extra, hex⟩ := previewStep_exists_extra acc f
    calc acc <+: previewStep acc f := by rw [hex]; exact ⟨extra, rfl⟩
      _ <+: fs.foldl previewStep (previewStep acc f) := ih _

theorem previewStep_nil_eq_nil (f : ActiveTextFilter)
    (h : previewStep [] f = []) : isInert f := by
  unfold previewStep at h
  cases hfind : TEXT_FILTERS.find? (fun c => c.id = f.id) with
  | none => exact Or.inl hfind
  | some config =>
    rw [hfind] at h
    dsimp only at h
    by_cases ht : jsTrim f.value = []
    · exact Or.inr ht
    · exfalso
      rw [if_neg ht] at h
      have hcmem : config ∈ TEXT_FILTERS := List.mem_of_find?_eq_some hfind
      have hid : config.id = "after" ∨ config.id = "before" ∨
          config.id = "intitle" ∨ config.id = "exact" ∨ config.id = "exclude" ∨
          config.id = "channel" ∨ config.id = "hashtag" := by
        simp only [TEXT_FILTERS, List.mem_cons, List.not_mem_nil, or_false] at hcmem
        rcases hcmem with h | h | h | h | h | h | h <;> subst h <;> simp
      have hsp := splitWS_ne_nil_of_trim f.value ht
      rcases hid with hc | hc | hc | hc | hc | hc | hc <;> simp [hc, hsp] at h


theorem foldl_previewStep_nil_iff (fs : List ActiveTextFilter) :
    fs.foldl previewStep [] = [] ↔ ∀ f ∈ fs, isInert f := by
  induction fs with
  | nil => simp
  | cons f fs ih =>
    rw [List.foldl_cons]
    constructor
    · intro h
      have hpre := foldl_previewStep_prefix fs (previewStep [] f)
      rw [h] at hpre
      have hstep : previewStep [] f = [] := List.prefix_nil.mp hpre
      have hf := previewStep_nil_eq_nil f hstep
      intro g hg
      rcases List.mem_cons.mp hg with hg | hg
      · rw [hg]; exact hf
      · rw [hstep] at h
        exact (ih.mp h) g hg
    · intro h
      rw [previewStep_inert [] f (h f (by simp))]
      exact ih.mpr (fun g hg => h g (by simp [hg]))

/-- C8 counterexample: a non-empty input list made of one inert entry
(known id, whitespace-only value) yields an empty preview with
excludeShorts false, so a non-empty input does not guarantee output. -/
theorem c8_counterexample :
    buildPreviewLines [⟨"after", [' ']⟩] false = [] ∧
      ([⟨"after", [' ']⟩] : List ActiveTextFilter) ≠ [] := by
  constructor
  · decide
  · simp

/-- C8 (amended): buildPreviewLines with excludeShorts true is the
excludeShorts-false output with exactly one trailing Shorts line
appended; and the output is empty exactly when every input entry is
inert (unknown id or whitespace-only value) and excludeShorts is falsy.
The original claim's "input list is empty" weakens to "every entry is
inert": entries with unknown ids or whitespace-only values are skipped,
so a non-empty list of inert entries also yields an empty preview. -/
theorem c8_empty_iff (filters : List ActiveTextFilter) (es : Bool) :
    buildPreviewLines filters true =
      buildPreviewLines filters false ++ [⟨"NOT", "Shorts", []⟩] ∧
    (buildPreviewLines filters es = [] ↔
      (∀ f ∈ filters, isInert f) ∧ es = false) := by
  refine ⟨by simp [buildPreviewLines], ?_⟩
  cases es with
  | false =>
    simp only [buildPreviewLines, if_neg (by simp : ¬(false = true)),
      List.append_nil, and_true]
    exact foldl_previewStep_nil_iff filters
  | true =>
    simp only [buildPreviewLines, if_pos rfl]
    constructor
    · intro h
      exact absurd h (by simp)
    · intro h
      exact absurd h.2 (by simp)

/-- The connector discipline of preview lines: exclude lines carry NOT,
the first line otherwise carries the empty connector, and later
non-exclude lines carry AND. -/
def ConnSpec (L : List PreviewLine) : Prop :=
  (∀ l ∈ L, l.label = "Exclude" → l.connector = "NOT") ∧
  (∀ l rest, L = l :: rest → l.label ≠ "Exclude" → l.connector = "") ∧
  (∀ l ∈ L.tail, (l.label = "After" ∨ l.label = "Before" ∨
    l.label = "In Title" ∨ l.label = "Boost Channel" ∨ l.label = "Exact") →
    l.connector = "AND")

theorem connSpec_append_single (acc : List PreviewLine) (x : PreviewLine)
    (hs : ConnSpec acc) (hlab : x.label ≠ "Exclude")
    (hconn : x.connector = (if acc.length = 0 then "" else "AND")) :
    ConnSpec (acc ++ [x]) := by
  obtain ⟨h1, h2, h3⟩ := hs
  refine ⟨?_, ?_, ?_⟩
  · intro l hl hex
    rcases List.mem_append.mp hl with h | h
    · exact h1 l h hex
    · simp only [List.mem_singleton] at h
      exact absurd (h ▸ hex) hlab
  · intro l rest hsplit hnl
    cases acc with
    | nil =>
      simp only [List.nil_append] at hsplit
      injection hsplit with ha _
      subst ha
      simpa using hconn
    | cons a as =>
      simp only [List.cons_append] at hsplit
      injection hsplit with ha _
      rw [← ha] at hnl ⊢
      exact h2 a as rfl hnl
  · intro l hl hfive
    cases acc with
    | nil => simp at hl
    | cons a as =>
      simp only [List.cons_append, List.tail_cons] at hl
      rcases List.mem_append.mp hl with h | h
      · exact h3 l h hfive
      · simp only [List.mem_singleton] at h
        subst h
        rw [hconn, if_neg (by simp)]

theorem connSpec_append_not (acc block : List PreviewLine) (hs : ConnSpec acc)
    (hb : ∀ x ∈ block, x.label = "Exclude" ∧ x.connector = "NOT") :
    ConnSpec (acc ++ block) := by
  obtain ⟨h1, h2, h3⟩ := hs
  refine ⟨?_, ?_, ?_⟩
  · intro l hl _
    rcases List.mem_append.mp hl with h | h
    · exact h1 l h ‹_›
    · exact (hb l h).2
  · intro l rest hsplit hnl
    cases acc with
    | nil =>
      simp only [List.nil_append] at hsplit
      exact absurd (hb l (by rw [hsplit]; simp)).1 hnl
    | cons a as =>
      simp only [List.cons_append] at hsplit
      injection hsplit with ha _
      rw [← ha] at hnl ⊢
      exact h2 a as rfl hnl
  · intro l hl hfive
    have hnotex : l ∈ block → l.connector = "AND" := by
      intro h
      obtain ⟨hex, -⟩ := hb l h
      rcases hfive with h5 | h5 | h5 | h5 | h5 <;> rw [h5] at hex <;> simp at hex
    cases acc with
    | nil =>
      simp only [List.nil_append] at hl
      exact hnotex (List.tail_sublist block |>.mem hl)
    | cons a as =>
      simp only [List.cons_append, List.tail_cons] at hl
      rcases List.mem_append.mp hl with h | h
      · exact h3 l h hfive
      · exact hnotex h

theorem connSpec_previewStep (acc : List PreviewLine) (f : ActiveTextFilter)
    (hs : ConnSpec acc) : ConnSpec (previewStep acc f) := by
  unfold previewStep
  cases TEXT_FILTERS.find? (fun c => c.id = f.id) with
  | none => exact hs
  | some config =>
    dsimp only
    by_cases ht : jsTrim f.value = []
    · rw [if_pos ht]; exact hs
    · rw [if_neg ht]
      by_cases hcid : config.id = "exact"
      · rw [if_pos hcid]
        exact connSpec_append_single acc _ hs (by simp) rfl
      rw [if_neg hcid]
      by_cases hcid2 : config.id = "exclude"
      · rw [if_pos hcid2]
        refine connSpec_append_not acc _ hs ?_
        intro x hx
        simp only [List.mem_map] at hx
        obtain ⟨w, -, hw⟩ := hx
        rw [← hw]
        exact ⟨rfl, rfl⟩
      rw [if_neg hcid2]
      by_cases h3 : config.id = "after"
      · rw [if_pos h3]; exact connSpec_append_single acc _ hs (by simp) rfl
      rw [if_neg h3]
      by_cases h4 : config.id = "before"
      · rw [if_pos h4]; exact connSpec_append_single acc _ hs (by simp) rfl
      rw [if_neg h4]
      by_cases h5 : config.id = "intitle"
      · rw [if_pos h5]; exact connSpec_append_single acc _ hs (by simp) rfl
      rw [if_neg h5]
      by_cases h6 : config.id = "channel"
      · rw [if_pos h6]; exact connSpec_append_single acc _ hs (by simp) rfl
      rw [if_neg h6]
      by_cases h7 : config.id = "hashtag"
      · rw [if_pos h7]; exact connSpec_append_single acc _ hs (by simp) rfl
      rw [if_neg h7]
      exact hs

theorem connSpec_foldl :
    ∀ (fs : List ActiveTextFilter) (acc : List PreviewLine),
      ConnSpec acc → ConnSpec (fs.foldl previewStep acc) := by
  intro fs
  induction fs with
  | nil => intro acc h; exact h
  | cons f fs ih =>
    intro acc h
    rw [List.foldl_cons]
    exact ih _ (connSpec_previewStep acc f h)

/-- C7: iterating the input in order and skipping inert entries, every
line produced by an exclude entry has connector NOT, even as the very
first line; the first emitted line otherwise has the empty connector;
and every subsequent line produced by after, before, intitle, channel or
exact has connector AND.  Lines from exclude entries are exactly the
lines labelled "Exclude". -/
theorem c7_connectors (filters : List ActiveTextFilter) :
    (∀ l ∈ buildPreviewLines filters false,
      l.label = "Exclude" → l.connector = "NOT") ∧
    (∀ l rest, buildPreviewLines filters false = l :: rest →
      l.label ≠ "Exclude" → l.connector = "") ∧
    (∀ l ∈ (buildPreviewLines filters false).tail,
      (l.label = "After" ∨ l.label = "Before" ∨ l.label = "In Title" ∨
        l.label = "Boost Channel" ∨ l.label = "Exact") →
      l.connector = "AND") := by
  have h : ConnSpec (buildPreviewLines filters false) := by
    unfold buildPreviewLines
    rw [if_neg (by simp : ¬(false = true)), List.append_nil]
    exact connSpec_foldl filters [] ⟨by simp, by simp, by simp⟩
  exact h

-- ─── C4: buildQueryString rendering ─────────────────────────────────

/-- The spec's rendering rules for one entry, written from the spec's
words: non-inert entries render by id (exact wraps in quotes, exclude
emits one dash token per word, hashtag prefixes a hash, the four prefix
operators concatenate token and value), everything else is dropped. -/
def specRenderTokens (f : ActiveTextFilter) : List (List Char) :=
  if jsTrim f.value = [] then []
  else if f.id = "exact" then [['"'] ++ jsTrim f.value ++ ['"']]
  else if f.id = "exclude" then (splitWS (jsTrim f.value)).map (fun w => '-' :: w)
  else if f.id = "hashtag" then ['#' :: jsTrim f.value]
  else if f.id = "after" then [afterTok ++ jsTrim f.value]
  else if f.id = "before" then [beforeTok ++ jsTrim f.value]
  else if f.id = "intitle" then [intitleTok ++ jsTrim f.value]
  else if f.id = "channel" then [channelTok ++ jsTrim f.value]
  else []

theorem buildParts_eq_flatMap (fs : List ActiveTextFilter) :
    buildParts fs = fs.flatMap specRenderTokens := by
  induction fs with
  | nil => rfl
  | cons f fs ih =>
    rw [List.flatMap_cons, ← ih]
    show (match TEXT_FILTERS.find? (fun c => c.id = f.id) with
      | none => buildParts fs
      | some config =>
        if jsTrim f.value = [] then buildParts fs
        else renderParts config (jsTrim f.value) ++ buildParts fs) = _
    rw [find?_catalog f.id]
    by_cases ht : jsTrim f.value = []
    · unfold specRenderTokens
      rw [if_pos ht]
      split <;> first
        | simp [ht]
        | (split <;> first
            | simp [ht]
            | (split <;> first
                | simp [ht]
                | (split <;> first
                    | simp [ht]
                    | (split <;> first
                        | simp [ht]
                        | (split <;> first
                            | simp [ht]
                            | (split <;> simp [ht]))))))
    · unfold specRenderTokens
      rw [if_neg ht]
      by_cases h1 : "after" = f.id
      · rw [if_pos h1]
        simp [renderParts, ← h1, ht]
      rw [if_neg h1]
      by_cases h2 : "before" = f.id
      · rw [if_pos h2]
        simp [renderParts, ← h2, ht]
      rw [if_neg h2]
      by_cases h3 : "intitle" = f.id
      · rw [if_pos h3]
        simp [renderParts, ← h3, ht]
      rw [if_neg h3]
      by_cases h4 : "exact" = f.id
      · rw [if_pos h4]
        simp [renderParts, ← h4, ht]
      rw [if_neg h4]
      by_cases h5 : "exclude" = f.id
      · rw [if_pos h5]
        simp [renderParts, ← h5, ht]
      rw [if_neg h5]
      by_cases h6 : "channel" = f.id
      · rw [if_pos h6]
        simp [renderParts, ← h6, ht]
      rw [if_neg h6]
      by_cases h7 : "hashtag" = f.id
      · rw [if_pos h7]
        simp [renderParts, ← h7, ht]
      rw [if_neg h7]
      rw [if_neg (fun h => h4 (Eq.symm h)), if_neg (fun h => h5 (Eq.symm h)),
        if_neg (fun h => h7 (Eq.symm h)), if_neg (fun h => h1 (Eq.symm h)),
        if_neg (fun h => h2 (Eq.symm h)), if_neg (fun h => h3 (Eq.symm h)),
        if_neg (fun h => h6 (Eq.symm h))]
      simp

theorem jsTrim_eq_self_of_ends (l : List Char)
    (hh : ∀ c, l.head? = some c → jsWS c = false)
    (hl : ∀ c, l.getLast? = some c → jsWS c = false) : jsTrim l = l := by
  cases l with
  | nil => rfl
  | cons c r =>
    unfold jsTrim
    have h1 : (c :: r).dropWhile jsWS = c :: r := by
      rw [List.dropWhile_cons, if_neg]
      simp [hh c rfl]
    rw [h1]
    have h2 : (c :: r).reverse.dropWhile jsWS = (c :: r).reverse := by
      apply dropWhile_eq_self_of_head
      intro d s hds
      apply hl
      rw [← List.head?_reverse, hds]
      rfl
    rw [h2, List.reverse_reverse]

theorem splitWS_chunks : ∀ (fuel : Nat) (l : List Char), l.length ≤ fuel →
    ∀ w ∈ splitWSF fuel l, w ≠ [] ∧ ∀ c ∈ w, nonWS c = true := by
  intro fuel
  induction fuel with
  | zero =>
    intro l hl w hw
    cases l with
    | nil => simp [splitWSF] at hw
    | cons c cs => simp at hl
  | succ f ih =>
    intro l hl w hw
    cases l with
    | nil => simp [splitWSF] at hw
    | cons c cs =>
      simp only [List.length_cons] at hl
      simp only [splitWSF] at hw
      by_cases hc : jsWS c
      · rw [if_pos hc] at hw
        exact ih cs (by omega) w hw
      · rw [if_neg hc] at hw
        rcases List.mem_cons.mp hw with hw | hw
        · subst hw
          refine ⟨by simp, ?_⟩
          intro d hd
          rcases List.mem_cons.mp hd with hd | hd
          · subst hd; simp [nonWS, hc]
          · exact List.mem_takeWhile_imp hd
        · have := dropWhile_length_le nonWS cs
          exact ih (cs.dropWhile nonWS) (by omega) w hw

theorem mem_splitWS (l : List Char) (w : List Char) (hw : w ∈ splitWS l) :
    w ≠ [] ∧ ∀ c ∈ w, nonWS c = true :=
  splitWS_chunks l.length l le_rfl w hw

theorem buildParts_good (fs : List ActiveTextFilter) :
    ∀ p ∈ buildParts fs, p ≠ [] ∧
      (∀ c, p.head? = some c → jsWS c = false) ∧
      (∀ c, p.getLast? = some c → jsWS c = false) := by
  rw [buildParts_eq_flatMap]
  intro p hp
  rw [List.mem_flatMap] at hp
  obtain ⟨f, -, hp⟩ := hp
  unfold specRenderTokens at hp
  by_cases ht : jsTrim f.value = []
  · rw [if_pos ht] at hp; simp at hp
  rw [if_neg ht] at hp
  obtain ⟨d, m, hdm⟩ : ∃ d m, jsTrim f.value = d :: m := by
    cases hj : jsTrim f.value with
    | nil => exact absurd hj ht
    | cons d m => exact ⟨d, m, rfl⟩
  obtain ⟨e, n, hen⟩ : ∃ e n, jsTrim f.value = n ++ [e] := by
    rcases List.eq_nil_or_concat (jsTrim f.value) with h | ⟨n, e, h⟩
    · exact absurd h ht
    · exact ⟨e, n, by simpa [List.concat_eq_append] using h⟩
  have hd : jsWS d = false := jsTrim_head_nonWS f.value d m hdm
  have he : jsWS e = false := jsTrim_last_nonWS f.value e n hen
  have hval_head : (jsTrim f.value).head? = some d := by rw [hdm]; rfl
  have hval_last : (jsTrim f.value).getLast? = some e := by
    rw [hen, List.getLast?_append_of_ne_nil n (by simp)]; rfl
  by_cases h1 : f.id = "exact"
  · rw [if_pos h1] at hp
    simp only [List.mem_singleton] at hp
    subst hp
    refine ⟨by simp, ?_, ?_⟩
    · intro c hc
      simp only [List.cons_append, List.head?_cons, Option.some.injEq] at hc
      rw [← hc]; decide
    · intro c hc
      rw [List.getLast?_append_of_ne_nil _ (by simp : (['"'] : List Char) ≠ [])] at hc
      simp only [List.getLast?_singleton, Option.some.injEq] at hc
      rw [← hc]; decide
  rw [if_neg h1] at hp
  by_cases h2 : f.id = "exclude"
  · rw [if_pos h2] at hp
    simp only [List.mem_map] at hp
    obtain ⟨w, hwmem, hw⟩ := hp
    obtain ⟨hwne, hwall⟩ := mem_splitWS _ w hwmem
    subst hw
    refine ⟨by simp, ?_, ?_⟩
    · intro c hc
      simp only [List.head?_cons, Option.some.injEq] at hc
      rw [← hc]; decide
    · intro c hc
      cases w with
      | nil => exact absurd rfl hwne
      | cons w0 ws =>
        rw [show ('-' :: w0 :: ws) = ['-'] ++ (w0 :: ws) from rfl,
          List.getLast?_append_of_ne_nil _ (by simp)] at hc
        have hcmem : c ∈ w0 :: ws := List.mem_of_mem_getLast? hc
        have := hwall c hcmem
        simpa [nonWS] using this
  rw [if_neg h2] at hp
  have htok : ∀ tok : List Char, tok ≠ [] →
      (∀ c, tok.head? = some c → jsWS c = false) →
      p = tok ++ jsTrim f.value →
      p ≠ [] ∧ (∀ c, p.head? = some c → jsWS c = false) ∧
        (∀ c, p.getLast? = some c → jsWS c = false) := by
    intro tok htne htokh hptok
    subst hptok
    refine ⟨by simp [htne], ?_, ?_⟩
    · intro c hc
      rw [List.head?_append_of_ne_nil tok htne] at hc
      exact htokh c hc
    · intro c hc
      rw [List.getLast?_append_of_ne_nil tok (by rw [hdm]; simp)] at hc
      rw [hval_last] at hc
      injection hc with hc
      rw [← hc]; exact he
  have hhash : p = '#' :: jsTrim f.value →
      p ≠ [] ∧ (∀ c, p.head? = some c → jsWS c = false) ∧
        (∀ c, p.getLast? = some c → jsWS c = false) := by
    intro hph
    exact htok ['#'] (by simp) (by intro c hc; injection hc with hc; rw [← hc]; decide)
      (by simpa using hph)
  by_cases h3 : f.id = "hashtag"
  · rw [if_pos h3] at hp
    simp only [List.mem_singleton] at hp
    exact hhash hp
  rw [if_neg h3] at hp
  by_cases h4 : f.id = "after"
  · rw [if_pos h4] at hp
    simp only [List.mem_singleton] at hp
    exact htok afterTok (by decide)
      (by intro c hc; rw [show afterTok.head? = some 'a' from rfl] at hc
          injection hc with hc; rw [← hc]; decide) hp
  rw [if_neg h4] at hp
  by_cases h5 : f.id = "before"
  · rw [if_pos h5] at hp
    simp only [List.mem_singleton] at hp
    exact htok beforeTok (by decide)
      (by intro c hc; rw [show beforeTok.head? = some 'b' from rfl] at hc
          injection hc with hc; rw [← hc]; decide) hp
  rw [if_neg h5] at hp
  by_cases h6 : f.id = "intitle"
  · rw [if_pos h6] at hp
    simp only [List.mem_singleton] at hp
    exact htok intitleTok (by decide)
      (by intro c hc; rw [show intitleTok.head? = some 'i' from rfl] at hc
          injection hc with hc; rw [← hc]; decide) hp
  rw [if_neg h6] at hp
  by_cases h7 : f.id = "channel"
  · rw [if_pos h7] at hp
    simp only [List.mem_singleton] at hp
    exact htok channelTok (by decide)
      (by intro c hc; rw [show channelTok.head? = some 'c' from rfl] at hc
          injection hc with hc; rw [← hc]; decide) hp
  rw [if_neg h7] at hp
  simp at hp

theorem joinSpace_ne_nil (q : List Char) (qs : List (List Char)) (hq : q ≠ []) :
    joinSpace (q :: qs) ≠ [] := by
  cases qs with
  | nil => simpa [joinSpace] using hq
  | cons q2 qs2 => simp [joinSpace, hq]

theorem joinSpace_ends : ∀ (parts : List (List Char)),
    (∀ p ∈ parts, p ≠ [] ∧ (∀ c, p.head? = some c → jsWS c = false) ∧
      (∀ c, p.getLast? = some c → jsWS c = false)) →
    (∀ c, (joinSpace parts).head? = some c → jsWS c = false) ∧
    (∀ c, (joinSpace parts).getLast? = some c → jsWS c = false) := by
  intro parts
  induction parts with
  | nil => intro _; simp [joinSpace]
  | cons p ps ih =>
    intro h
    obtain ⟨hpne, hph, hpl⟩ := h p (by simp)
    cases ps with
    | nil => exact ⟨hph, hpl⟩
    | cons p2 ps2 =>
      have hih := ih (fun q hq => h q (by simp [hq]))
      obtain ⟨hp2ne, -, -⟩ := h p2 (by simp)
      have hjne := joinSpace_ne_nil p2 ps2 hp2ne
      constructor
      · intro c hc
        rw [show joinSpace (p :: p2 :: ps2) = p ++ ' ' :: joinSpace (p2 :: ps2)
            from rfl, List.head?_append_of_ne_nil p hpne] at hc
        exact hph c hc
      · intro c hc
        rw [show joinSpace (p :: p2 :: ps2) = p ++ ' ' :: joinSpace (p2 :: ps2)
            from rfl, List.getLast?_append_of_ne_nil p (by simp),
          show (' ' :: joinSpace (p2 :: ps2)) = [' '] ++ joinSpace (p2 :: ps2)
            from rfl, List.getLast?_append_of_ne_nil [' '] hjne] at hc
        exact hih.2 c hc

/-- C4: buildQueryString renders each non-inert entry by id (exact as the
trimmed value wrapped in double quotes, exclude as one dash token per
whitespace-separated word of the trimmed value, hashtag as a hash plus
the trimmed value, and after/before/intitle/channel as the operator
token concatenated with the trimmed value), silently drops entries with
unknown ids or whitespace-only values, returns the empty string for an
empty input list, and joins the rendered tokens in input order with
single spaces; the result carries no leading or trailing whitespace, as
trimming it changes nothing. -/
theorem c4_buildQueryString_spec (fs : List ActiveTextFilter) :
    buildQueryString fs = joinSpace (fs.flatMap specRenderTokens) ∧
    buildQueryString ([] : List ActiveTextFilter) = [] ∧
    jsTrim (buildQueryString fs) = buildQueryString fs := by
  refine ⟨by rw [buildQueryString, buildParts_eq_flatMap], rfl, ?_⟩
  have hends := joinSpace_ends (buildParts fs) (buildParts_good fs)
  exact jsTrim_eq_self_of_ends _ hends.1 hends.2

-- ─── Element facts about the parse scanners ─────────────────────────

theorem firstTokMatch_some_ne_nil (tok : List Char) :
    ∀ (q v : List Char), firstTokMatch tok q = some v → v ≠ [] := by
  intro q
  induction q with
  | nil => intro v h; simp [firstTokMatch] at h
  | cons c cs ih =>
    intro v h
    unfold firstTokMatch at h
    cases hm : tokMatchAt tok (c :: cs) with
    | some w =>
      rw [hm] at h
      injection h with h
      obtain ⟨-, d, ds, -, -, hw⟩ := tokMatchAt_some tok _ w hm
      rw [← h, hw]
      simp
    | none =>
      rw [hm] at h
      exact ih v h

theorem quotedSpansF_mem : ∀ (fuel : Nat) (l : List Char), l.length ≤ fuel →
    ∀ r ∈ quotedSpansF fuel l, r ≠ [] ∧ ∀ c ∈ r, ¬(c = '"') := by
  intro fuel
  induction fuel with
  | zero =>
    intro l hl r hr
    cases l with
    | nil => simp [quotedSpansF] at hr
    | cons c cs => simp at hl
  | succ f ih =>
    intro l hl r hr
    cases l with
    | nil => simp [quotedSpansF] at hr
    | cons c cs =>
      simp only [List.length_cons] at hl
      simp only [quotedSpansF] at hr
      have hd := dropWhile_length_le (fun d => !(d = '"')) cs
      have ht := List.length_tail (cs.dropWhile (fun d => !(d = '"')))
      by_cases hc : c = '"'
      · rw [if_pos hc] at hr
        by_cases hrun : cs.takeWhile (fun d => !(d = '"')) ≠ [] ∧
            cs.dropWhile (fun d => !(d = '"')) ≠ []
        · rw [if_pos hrun] at hr
          rcases List.mem_cons.mp hr with hr | hr
          · subst hr
            refine ⟨hrun.1, ?_⟩
            intro d hdm
            have := List.mem_takeWhile_imp hdm
            simpa using this
          · exact ih _ (by omega) r hr
        · rw [if_neg hrun] at hr
          exact ih cs (by omega) r hr
      · rw [if_neg hc] at hr
        exact ih cs (by omega) r hr

theorem quotedSpans_mem (l : List Char) (r : List Char) (hr : r ∈ quotedSpans l) :
    r ≠ [] ∧ ∀ c ∈ r, ¬(c = '"') :=
  quotedSpansF_mem l.length l le_rfl r hr

theorem dashWordsF_mem : ∀ (fuel : Nat) (b : Bool) (l : List Char),
    l.length ≤ fuel → ∀ w ∈ dashWordsF fuel b l,
      w ≠ [] ∧ ∀ c ∈ w, nonWS c = true := by
  intro fuel
  induction fuel with
  | zero =>
    intro b l hl w hw
    cases l with
    | nil => simp [dashWordsF] at hw
    | cons c cs => simp at hl
  | succ f ih =>
    intro b l hl w hw
    cases l with
    | nil => simp [dashWordsF] at hw
    | cons c cs =>
      simp only [List.length_cons] at hl
      simp only [dashWordsF] at hw
      have hd1 := dropWhile_length_le nonWS cs
      have hd2 := dropWhile_length_le nonWS cs.tail
      have htl := List.length_tail cs
      by_cases ha : b = true ∧ c = '-' ∧ cs.takeWhile nonWS ≠ []
      · rw [if_pos ha] at hw
        rcases List.mem_cons.mp hw with hw | hw
        · subst hw
          exact ⟨ha.2.2, fun c hc => List.mem_takeWhile_imp hc⟩
        · exact ih false _ (by omega) w hw
      · rw [if_neg ha] at hw
        by_cases hb : jsWS c ∧ cs.head? = some '-' ∧ cs.tail.takeWhile nonWS ≠ []
        · rw [if_pos hb] at hw
          rcases List.mem_cons.mp hw with hw | hw
          · subst hw
            exact ⟨hb.2.2, fun c hc => List.mem_takeWhile_imp hc⟩
          · exact ih false _ (by omega) w hw
        · rw [if_neg hb] at hw
          exact ih false cs (by omega) w hw

theorem dashWords_mem (b : Bool) (l w : List Char) (hw : w ∈ dashWords b l) :
    w ≠ [] ∧ ∀ c ∈ w, nonWS c = true :=
  dashWordsF_mem l.length b l le_rfl w hw

-- ─── C10: parse entries have non-empty values ───────────────────────

/-- C10: every ActiveFilter entry returned by parseQueryFilters has a
non-empty value: captured runs are non-empty, quoted spans must hold at
least one non-quote character, and an exclude entry is emitted only when
at least one non-empty dash word was found. -/
theorem c10_parse_values_nonempty (q : List Char) (f : ActiveTextFilter)
    (hf : f ∈ parseQueryFilters q) : f.value ≠ [] := by
  unfold parseQueryFilters at hf
  simp only [List.append_assoc, List.mem_append] at hf
  rcases hf with hf | hf | hf | hf | hf | hf | hf
  · cases h : firstTokMatch afterTok q with
    | some v =>
      rw [h] at hf
      simp only [List.mem_singleton] at hf
      subst hf
      exact firstTokMatch_some_ne_nil afterTok q v h
    | none => rw [h] at hf; simp at hf
  · cases h : firstTokMatch beforeTok q with
    | some v =>
      rw [h] at hf
      simp only [List.mem_singleton] at hf
      subst hf
      exact firstTokMatch_some_ne_nil beforeTok q v h
    | none => rw [h] at hf; simp at hf
  · cases h : firstTokMatch intitleTok q with
    | some v =>
      rw [h] at hf
      simp only [List.mem_singleton] at hf
      subst hf
      exact firstTokMatch_some_ne_nil intitleTok q v h
    | none => rw [h] at hf; simp at hf
  · simp only [List.mem_map] at hf
    obtain ⟨r, hr, hfr⟩ := hf
    rw [← hfr]
    exact (quotedSpans_mem q r hr).1
  · cases h : dashWords true q with
    | nil => rw [h] at hf; simp at hf
    | cons w ws =>
      rw [h] at hf
      simp only [List.mem_singleton] at hf
      subst hf
      show joinSpace (w :: ws) ≠ []
      exact joinSpace_ne_nil w ws
        (dashWords_mem true q w (by rw [h]; simp)).1
  · cases h : firstTokMatch channelTok q with
    | some v =>
      rw [h] at hf
      simp only [List.mem_singleton] at hf
      subst hf
      exact firstTokMatch_some_ne_nil channelTok q v h
    | none => rw [h] at hf; simp at hf
  · cases h : firstTokMatch hashTok q with
    | some v =>
      rw [h] at hf
      simp only [List.mem_singleton] at hf
      subst hf
      exact firstTokMatch_some_ne_nil hashTok q v h
    | none => rw [h] at hf; simp at hf

/-- C10 witness: the hashtag entry parsed from "#a" has a non-empty
value. -/
theorem c10_witness :
    (⟨"hashtag", ['a']⟩ : ActiveTextFilter).value ≠ [] :=
  c10_parse_values_nonempty ['#', 'a'] ⟨"hashtag", ['a']⟩ (by decide)

-- ─── Round-trip lemmas ──────────────────────────────────────────────

theorem tokMatchAt_append_self (tok v : List Char) (hne : v ≠ [])
    (hv : ∀ c ∈ v, jsWS c = false) : tokMatchAt tok (tok ++ v) = some v := by
  unfold tokMatchAt
  rw [if_pos (List.isPrefixOf_iff_prefix.mpr (List.prefix_append tok v)),
    List.drop_left]
  cases v with
  | nil => exact absurd rfl hne
  | cons d ds =>
    dsimp only
    rw [if_neg (by simp [hv d (by simp)])]
    congr 1
    rw [List.takeWhile_eq_self_iff.mpr]
    intro c hc
    simp [nonWS, hv c (by simp [hc])]

theorem firstTokMatch_of_tokMatchAt (tok : List Char) (c : Char) (cs v : List Char)
    (h : tokMatchAt tok (c :: cs) = some v) :
    firstTokMatch tok (c :: cs) = some v := by
  unfold firstTokMatch
  rw [h]

theorem firstTokMatch_append_self (tok v : List Char) (htok : tok ≠ [])
    (hne : v ≠ []) (hv : ∀ c ∈ v, jsWS c = false) :
    firstTokMatch tok (tok ++ v) = some v := by
  cases tok with
  | nil => exact absurd rfl htok
  | cons t ts =>
    exact firstTokMatch_of_tokMatchAt (t :: ts) t (ts ++ v) v
      (tokMatchAt_append_self (t :: ts) v hne hv)

theorem quotedSpans_wrap (v : List Char) (hne : v ≠ [])
    (hq : ∀ c ∈ v, ¬(c = '"')) :
    quotedSpans ('"' :: (v ++ ['"'])) = [v] := by
  rw [quotedSpans_cons, if_pos rfl]
  have htake : (v ++ ['"']).takeWhile (fun d => !(d = '"')) = v := by
    rw [List.takeWhile_append_of_pos (by intro c hc; simpa using hq c hc)]
    simp [List.takeWhile_cons]
  have hdrop : (v ++ ['"']).dropWhile (fun d => !(d = '"')) = ['"'] := by
    rw [List.dropWhile_append_of_pos (by intro c hc; simpa using hq c hc)]
    simp [List.dropWhile_cons]
  rw [if_pos (by rw [htake, hdrop]; exact ⟨hne, by simp⟩), htake, hdrop]
  rfl

theorem dashWords_join_false : ∀ (ws : List (List Char)),
    (∀ w ∈ ws, w ≠ [] ∧ ∀ c ∈ w, jsWS c = false) →
    dashWords false (' ' :: joinSpace (ws.map (fun w => '-' :: w))) = ws := by
  intro ws
  induction ws with
  | nil => intro _; rfl
  | cons w rest ih =>
    intro h
    obtain ⟨hwne, hwall⟩ := h w (by simp)
    have hx : joinSpace ((w :: rest).map (fun w => '-' :: w)) =
        '-' :: (w ++ (if rest = [] then [] else
          ' ' :: joinSpace (rest.map (fun w => '-' :: w)))) := by
      cases rest with
      | nil => simp [joinSpace]
      | cons r rs => simp [joinSpace]
    rw [hx, dashWords_cons]
    have htake : (w ++ (if rest = [] then [] else
        ' ' :: joinSpace (rest.map (fun w => '-' :: w)))).takeWhile nonWS = w := by
      rw [List.takeWhile_append_of_pos (by
        intro c hc; simp [nonWS, hwall c hc])]
      cases rest with
      | nil => simp
      | cons r rs =>
        rw [if_neg (by simp)]
        rw [List.takeWhile_cons, if_neg (by simp [nonWS, jsWS])]
        simp
    have hdrop : (w ++ (if rest = [] then [] else
        ' ' :: joinSpace (rest.map (fun w => '-' :: w)))).dropWhile nonWS =
        (if rest = [] then [] else
          ' ' :: joinSpace (rest.map (fun w => '-' :: w))) := by
      rw [List.dropWhile_append_of_pos (by
        intro c hc; simp [nonWS, hwall c hc])]
      cases rest with
      | nil => simp
      | cons r rs =>
        rw [if_neg (by simp), List.dropWhile_cons,
          if_neg (by simp [nonWS, jsWS])]
    rw [if_neg (by simp), if_pos ⟨by simp [jsWS], by simp, by
      simp only [List.tail_cons]
      rw [htake]
      exact hwne⟩]
    simp only [List.tail_cons]
    rw [htake, hdrop]
    cases rest with
    | nil => simp [dashWords_nil]
    | cons r rs =>
      rw [if_neg (by simp)]
      rw [ih (fun x hx => h x (by simp [hx]))]

theorem dashWords_join (ws : List (List Char)) (hne : ws ≠ [])
    (h : ∀ w ∈ ws, w ≠ [] ∧ ∀ c ∈ w, jsWS c = false) :
    dashWords true (joinSpace (ws.map (fun w => '-' :: w))) = ws := by
  cases ws with
  | nil => exact absurd rfl hne
  | cons w rest =>
    obtain ⟨hwne, hwall⟩ := h w (by simp)
    have hx : joinSpace ((w :: rest).map (fun w => '-' :: w)) =
        '-' :: (w ++ (if rest = [] then [] else
          ' ' :: joinSpace (rest.map (fun w => '-' :: w)))) := by
      cases rest with
      | nil => simp [joinSpace]
      | cons r rs => simp [joinSpace]
    have htake : (w ++ (if rest = [] then [] else
        ' ' :: joinSpace (rest.map (fun w => '-' :: w)))).takeWhile nonWS = w := by
      rw [List.takeWhile_append_of_pos (by
        intro c hc; simp [nonWS, hwall c hc])]
      cases rest with
      | nil => simp
      | cons r rs =>
        rw [if_neg (by simp), List.takeWhile_cons, if_neg (by simp [nonWS, jsWS])]
        simp
    have hdrop : (w ++ (if rest = [] then [] else
        ' ' :: joinSpace (rest.map (fun w => '-' :: w)))).dropWhile nonWS =
        (if rest = [] then [] else
          ' ' :: joinSpace (rest.map (fun w => '-' :: w))) := by
      rw [List.dropWhile_append_of_pos (by
        intro c hc; simp [nonWS, hwall c hc])]
      cases rest with
      | nil => simp
      | cons r rs =>
        rw [if_neg (by simp), List.dropWhile_cons,
          if_neg (by simp [nonWS, jsWS])]
    rw [hx, dashWords_cons, if_pos ⟨rfl, rfl, by rw [htake]; exact hwne⟩,
      htake, hdrop]
    cases rest with
    | nil => simp [dashWords_nil]
    | cons r rs =>
      rw [if_neg (by simp)]
      rw [dashWords_join_false (r :: rs) (fun x hx => h x (by simp [hx]))]

theorem buildParts_single (f : ActiveTextFilter) (config : TextFilterConfig)
    (hfind : TEXT_FILTERS.find? (fun c => c.id = f.id) = some config)
    (ht : jsTrim f.value ≠ []) :
    buildParts [f] = renderParts config (jsTrim f.value) := by
  show (match TEXT_FILTERS.find? (fun c => c.id = f.id) with
    | none => buildParts []
    | some config =>
      if jsTrim f.value = [] then buildParts []
      else renderParts config (jsTrim f.value) ++ buildParts []) = _
  rw [hfind]
  dsimp only
  rw [if_neg ht]
  simp [buildParts]

/-- C1 counterexample: the hashtag filter with the two-word value "a b"
does not round-trip: the built string "#a b" parses back to a hashtag
entry with value "a", because the hashtag capture stops at whitespace. -/
theorem c1_counterexample :
    (⟨"hashtag", ['a', ' ', 'b']⟩ : ActiveTextFilter) ∉
      parseQueryFilters (buildQueryString [⟨"hashtag", ['a', ' ', 'b']⟩]) := by
  decide

/-- C1 (amended): the round-trip holds for the values the grammar can
carry: for the five prefix operators any non-empty whitespace-free
value; for exact any non-empty trimmed quote-free value; for exclude
any value with a non-empty trim, whose whitespace-separated words
round-trip space-joined.  Whitespace inside a prefix-operator or
hashtag value, quotes inside an exact value, and whitespace-only
values all break the round-trip, as the counterexample shows. -/
theorem c1_roundtrip_amended (v : List Char) :
    ((∀ c ∈ v, jsWS c = false) → v ≠ [] →
      ∀ p ∈ [("after", afterTok), ("before", beforeTok),
          ("intitle", intitleTok), ("channel", channelTok),
          ("hashtag", hashTok)],
        (⟨p.1, v⟩ : ActiveTextFilter) ∈
          parseQueryFilters (buildQueryString [⟨p.1, v⟩])) ∧
    ((∀ c ∈ v, ¬(c = '"')) → v ≠ [] → jsTrim v = v →
      (⟨"exact", v⟩ : ActiveTextFilter) ∈
        parseQueryFilters (buildQueryString [⟨"exact", v⟩])) ∧
    (jsTrim v ≠ [] →
      (⟨"exclude", joinSpace (splitWS (jsTrim v))⟩ : ActiveTextFilter) ∈
        parseQueryFilters (buildQueryString [⟨"exclude", v⟩])) := by
  refine ⟨?_, ?_, ?_⟩
  · intro hv hne p hp
    have htrim : jsTrim v = v := jsTrim_eq_self v hv
    simp only [List.mem_cons, List.not_mem_nil, or_false] at hp
    rcases hp with hp | hp | hp | hp | hp <;> subst hp
    · have hbuild : buildQueryString [⟨"after", v⟩] = afterTok ++ v := by
        rw [buildQueryString, buildParts_single _ ⟨"after", "After", "date", afterTok⟩
          (by simp [find?_catalog]) (by rw [htrim]; exact hne)]
        simp [renderParts, htrim, joinSpace]
      rw [hbuild]
      unfold parseQueryFilters
      rw [firstTokMatch_append_self afterTok v (by decide) hne hv]
      simp
    · have hbuild : buildQueryString [⟨"before", v⟩] = beforeTok ++ v := by
        rw [buildQueryString, buildParts_single _ ⟨"before", "Before", "date", beforeTok⟩
          (by simp [find?_catalog]) (by rw [htrim]; exact hne)]
        simp [renderParts, htrim, joinSpace]
      rw [hbuild]
      unfold parseQueryFilters
      rw [firstTokMatch_append_self beforeTok v (by decide) hne hv]
      simp
    · have hbuild : buildQueryString [⟨"intitle", v⟩] = intitleTok ++ v := by
        rw [buildQueryString, buildParts_single _ ⟨"intitle", "In Title", "text", intitleTok⟩
          (by simp [find?_catalog]) (by rw [htrim]; exact hne)]
        simp [renderParts, htrim, joinSpace]
      rw [hbuild]
      unfold parseQueryFilters
      rw [firstTokMatch_append_self intitleTok v (by decide) hne hv]
      simp
    · have hbuild : buildQueryString [⟨"channel", v⟩] = channelTok ++ v := by
        rw [buildQueryString, buildParts_single _ ⟨"channel", "Boost Channel", "text", channelTok⟩
          (by simp [find?_catalog]) (by rw [htrim]; exact hne)]
        simp [renderParts, htrim, joinSpace]
      rw [hbuild]
      unfold parseQueryFilters
      rw [firstTokMatch_append_self channelTok v (by decide) hne hv]
      simp
    · have hbuild : buildQueryString [⟨"hashtag", v⟩] = hashTok ++ v := by
        rw [buildQueryString, buildParts_single _ ⟨"hashtag", "Hashtag", "text", hashTok⟩
          (by simp [find?_catalog]) (by rw [htrim]; exact hne)]
        simp [renderParts, htrim, joinSpace, hashTok]
      rw [hbuild]
      unfold parseQueryFilters
      rw [firstTokMatch_append_self hashTok v (by decide) hne hv]
      simp
  · intro hq hne htrim
    have hbuild : buildQueryString [⟨"exact", v⟩] = '"' :: (v ++ ['"']) := by
      rw [buildQueryString, buildParts_single _ ⟨"exact", "Exact Phrase", "text", "\"".data⟩
        (by simp [find?_catalog]) (by rw [htrim]; exact hne)]
      simp [renderParts, htrim, joinSpace]
    rw [hbuild]
    unfold parseQueryFilters
    rw [quotedSpans_wrap v hne hq]
    simp
  · intro ht
    have hbuild : buildQueryString [⟨"exclude", v⟩] =
        joinSpace ((splitWS (jsTrim v)).map (fun w => '-' :: w)) := by
      rw [buildQueryString, buildParts_single _ ⟨"exclude", "Exclude", "text", "-".data⟩
        (by simp [find?_catalog]) ht]
      simp [renderParts]
    rw [hbuild]
    unfold parseQueryFilters
    rw [dashWords_join (splitWS (jsTrim v)) (splitWS_ne_nil_of_trim v ht)
      (by
        intro w hw
        obtain ⟨hwne, hwall⟩ := mem_splitWS _ w hw
        exact ⟨hwne, by
          intro c hc
          have := hwall c hc
          simpa [nonWS] using this⟩)]
    cases hsp : splitWS (jsTrim v) with
    | nil => exact absurd hsp (splitWS_ne_nil_of_trim v ht)
    | cons w ws =>
      simp

-- ─── First-match characterization ───────────────────────────────────

theorem tokMatchAt_nil (tok : List Char) : tokMatchAt tok [] = none := by
  unfold tokMatchAt
  cases tok with
  | nil => simp
  | cons t ts => simp [List.isPrefixOf]

theorem firstTokMatch_eq_some_iff (tok : List Char) :
    ∀ (q v : List Char), firstTokMatch tok q = some v ↔
      ∃ n, tokMatchAt tok (q.drop n) = some v ∧
        ∀ j < n, tokMatchAt tok (q.drop j) = none := by
  intro q
  induction q with
  | nil =>
    intro v
    simp only [firstTokMatch, List.drop_nil]
    constructor
    · intro h; simp at h
    · rintro ⟨n, hn, -⟩
      rw [tokMatchAt_nil] at hn
      simp at hn
  | cons c cs ih =>
    intro v
    unfold firstTokMatch
    cases hm : tokMatchAt tok (c :: cs) with
    | some w =>
      constructor
      · intro h
        injection h with h
        exact ⟨0, by simpa [hm] using congrArg some h, by omega⟩
      · intro ⟨n, hn, hj⟩
        cases n with
        | zero =>
          simp only [List.drop_zero] at hn
          rw [hm] at hn
          exact hn
        | succ m =>
          have := hj 0 (by omega)
          simp only [List.drop_zero] at this
          rw [hm] at this
          simp at this
    | none =>
      rw [ih v]
      constructor
      · intro ⟨n, hn, hj⟩
        refine ⟨n + 1, by simpa [List.drop_succ_cons] using hn, ?_⟩
        intro j hji
        cases j with
        | zero => simpa using hm
        | succ i =>
          rw [List.drop_succ_cons]
          exact hj i (by omega)
      · intro ⟨n, hn, hj⟩
        cases n with
        | zero =>
          simp only [List.drop_zero] at hn
          rw [hm] at hn
          simp at hn
        | succ m =>
          rw [List.drop_succ_cons] at hn
          refine ⟨m, hn, ?_⟩
          intro j hji
          have := hj (j + 1) (by omega)
          rwa [List.drop_succ_cons] at this

-- ─── Block view of parseQueryFilters ────────────────────────────────

/-- The entry list one first-match operator contributes to the parse. -/
def optEntry (i : String) : Option (List Char) → List ActiveTextFilter
  | some v => [⟨i, v⟩]
  | none => []

/-- The entry list the merged exclude words contribute to the parse. -/
def exclEntry : List (List Char) → List ActiveTextFilter
  | [] => []
  | ws => [⟨"exclude", joinSpace ws⟩]

theorem parse_eq (q : List Char) : parseQueryFilters q =
    optEntry "after" (firstTokMatch afterTok q) ++
    optEntry "before" (firstTokMatch beforeTok q) ++
    optEntry "intitle" (firstTokMatch intitleTok q) ++
    (quotedSpans q).map (fun r => ⟨"exact", r⟩) ++
    exclEntry (dashWords true q) ++
    optEntry "channel" (firstTokMatch channelTok q) ++
    optEntry "hashtag" (firstTokMatch hashTok q) := rfl

theorem optEntry_ids (i : String) (x : Option (List Char)) :
    ∀ f ∈ optEntry i x, f.id = i := by
  cases x <;> simp [optEntry]

theorem exclEntry_ids (ws : List (List Char)) :
    ∀ f ∈ exclEntry ws, f.id = "exclude" := by
  cases ws <;> simp [exclEntry]

theorem mem_optEntry (i : String) (x : Option (List Char)) (v : List Char)
    (h : (⟨i, v⟩ : ActiveTextFilter) ∈ optEntry i x) : x = some v := by
  cases x with
  | none => simp [optEntry] at h
  | some w =>
    simp only [optEntry, List.mem_singleton, ActiveTextFilter.mk.injEq] at h
    rw [h.2]

theorem optEntry_pairwise (i : String) (x : Option (List Char))
    (R : ActiveTextFilter → ActiveTextFilter → Prop) :
    List.Pairwise R (optEntry i x) := by
  cases x <;> simp [optEntry]

theorem exclEntry_pairwise (ws : List (List Char))
    (R : ActiveTextFilter → ActiveTextFilter → Prop) :
    List.Pairwise R (exclEntry ws) := by
  cases ws <;> simp [exclEntry]

theorem optEntry_countP (i : String) (x : Option (List Char))
    (p : ActiveTextFilter → Bool) : (optEntry i x).countP p ≤ 1 := by
  cases x <;> simp [optEntry, List.countP_cons]
  split <;> omega

theorem exclEntry_countP (ws : List (List Char))
    (p : ActiveTextFilter → Bool) : (exclEntry ws).countP p ≤ 1 := by
  cases ws <;> simp [exclEntry, List.countP_cons]
  split <;> omega

theorem countP_eq_zero_of_ids (l : List ActiveTextFilter) (i j : String)
    (hids : ∀ f ∈ l, f.id = i) (hij : i ≠ j) :
    l.countP (fun f => f.id = j) = 0 := by
  rw [List.countP_eq_zero]
  intro f hf
  simp [hids f hf, hij]

/-- The fixed emission order of parseQueryFilters, as a rank. -/
def idRank (i : String) : Nat :=
  if i = "after" then 0
  else if i = "before" then 1
  else if i = "intitle" then 2
  else if i = "exact" then 3
  else if i = "exclude" then 4
  else if i = "channel" then 5
  else if i = "hashtag" then 6
  else 7

theorem mem_parse_block (q : List Char) (f : ActiveTextFilter)
    (hf : f ∈ parseQueryFilters q) :
    (f.id = "after" ∧ f ∈ optEntry "after" (firstTokMatch afterTok q)) ∨
    (f.id = "before" ∧ f ∈ optEntry "before" (firstTokMatch beforeTok q)) ∨
    (f.id = "intitle" ∧ f ∈ optEntry "intitle" (firstTokMatch intitleTok q)) ∨
    (f.id = "exact" ∧ f.value ∈ quotedSpans q) ∨
    (f.id = "exclude" ∧ f ∈ exclEntry (dashWords true q)) ∨
    (f.id = "channel" ∧ f ∈ optEntry "channel" (firstTokMatch channelTok q)) ∨
    (f.id = "hashtag" ∧ f ∈ optEntry "hashtag" (firstTokMatch hashTok q)) := by
  rw [parse_eq] at hf
  simp only [List.append_assoc, List.mem_append] at hf
  rcases hf with h | h | h | h | h | h | h
  · exact Or.inl ⟨optEntry_ids _ _ f h, h⟩
  · exact Or.inr (Or.inl ⟨optEntry_ids _ _ f h, h⟩)
  · exact Or.inr (Or.inr (Or.inl ⟨optEntry_ids _ _ f h, h⟩))
  · refine Or.inr (Or.inr (Or.inr (Or.inl ?_)))
    simp only [List.mem_map] at h
    obtain ⟨r, hr, hfr⟩ := h
    rw [← hfr]
    exact ⟨rfl, hr⟩
  · exact Or.inr (Or.inr (Or.inr (Or.inr (Or.inl ⟨exclEntry_ids _ f h, h⟩))))
  · exact Or.inr (Or.inr (Or.inr (Or.inr (Or.inr (Or.inl
      ⟨optEntry_ids _ _ f h, h⟩)))))
  · exact Or.inr (Or.inr (Or.inr (Or.inr (Or.inr (Or.inr
      ⟨optEntry_ids _ _ f h, h⟩)))))

/-- C3: parseQueryFilters returns its entries in the fixed id order
after, before, intitle, exact, exclude, channel, hashtag regardless of
where the operators occur in the input; each of after, before, intitle,
channel, hashtag and exclude contributes at most one entry; and each
first-match operator's value is the capture at the leftmost matching
position of its token. -/
theorem c3_parse_order (q : List Char) :
    List.Pairwise (fun a b => idRank a.id ≤ idRank b.id) (parseQueryFilters q) ∧
    ((parseQueryFilters q).countP (fun f => f.id = "after") ≤ 1 ∧
     (parseQueryFilters q).countP (fun f => f.id = "before") ≤ 1 ∧
     (parseQueryFilters q).countP (fun f => f.id = "intitle") ≤ 1 ∧
     (parseQueryFilters q).countP (fun f => f.id = "channel") ≤ 1 ∧
     (parseQueryFilters q).countP (fun f => f.id = "hashtag") ≤ 1 ∧
     (parseQueryFilters q).countP (fun f => f.id = "exclude") ≤ 1) ∧
    (∀ p ∈ [("after", afterTok), ("before", beforeTok),
        ("intitle", intitleTok), ("channel", channelTok),
        ("hashtag", hashTok)],
      ∀ v, (⟨p.1, v⟩ : ActiveTextFilter) ∈ parseQueryFilters q →
        ∃ n, tokMatchAt p.2 (q.drop n) = some v ∧
          ∀ j < n, tokMatchAt p.2 (q.drop j) = none) := by
  have hA1 := optEntry_ids "after" (firstTokMatch afterTok q)
  have hA2 := optEntry_ids "before" (firstTokMatch beforeTok q)
  have hA3 := optEntry_ids "intitle" (firstTokMatch intitleTok q)
  have hA4 : ∀ f ∈ (quotedSpans q).map
      (fun r => (⟨"exact", r⟩ : ActiveTextFilter)), f.id = "exact" := by simp
  have hA5 := exclEntry_ids (dashWords true q)
  have hA6 := optEntry_ids "channel" (firstTokMatch channelTok q)
  have hA7 := optEntry_ids "hashtag" (firstTokMatch hashTok q)
  refine ⟨?_, ?_, ?_⟩
  · rw [parse_eq]
    simp only [List.append_assoc]
    have hrank : ∀ f ∈ optEntry "before" (firstTokMatch beforeTok q) ++
        (optEntry "intitle" (firstTokMatch intitleTok q) ++
        ((quotedSpans q).map (fun r => (⟨"exact", r⟩ : ActiveTextFilter)) ++
        (exclEntry (dashWords true q) ++
        (optEntry "channel" (firstTokMatch channelTok q) ++
        optEntry "hashtag" (firstTokMatch hashTok q))))),
        1 ≤ idRank f.id := by
      intro f hf
      simp only [List.mem_append] at hf
      rcases hf with h | h | h | h | h | h
      · rw [hA2 f h]; decide
      · rw [hA3 f h]; decide
      · rw [hA4 f h]; decide
      · rw [hA5 f h]; decide
      · rw [hA6 f h]; decide
      · rw [hA7 f h]; decide
    refine List.pairwise_append.mpr ⟨optEntry_pairwise _ _ _, ?_, ?_⟩
    swap
    · intro a ha b hb
      rw [hA1 a ha]
      rw [show idRank "after" = 0 from by decide]
      omega
    have hrank2 : ∀ f ∈ optEntry "intitle" (firstTokMatch intitleTok q) ++
        ((quotedSpans q).map (fun r => (⟨"exact", r⟩ : ActiveTextFilter)) ++
        (exclEntry (dashWords true q) ++
        (optEntry "channel" (firstTokMatch channelTok q) ++
        optEntry "hashtag" (firstTokMatch hashTok q)))),
        2 ≤ idRank f.id := by
      intro f hf
      simp only [List.mem_append] at hf
      rcases hf with h | h | h | h | h
      · rw [hA3 f h]; decide
      · rw [hA4 f h]; decide
      · rw [hA5 f h]; decide
      · rw [hA6 f h]; decide
      · rw [hA7 f h]; decide
    refine List.pairwise_append.mpr ⟨optEntry_pairwise _ _ _, ?_, ?_⟩
    swap
    · intro a ha b hb
      rw [hA2 a ha]
      rw [show idRank "before" = 1 from by decide]
      have := hrank2 b hb
      omega
    have hrank3 : ∀ f ∈ (quotedSpans q).map
        (fun r => (⟨"exact", r⟩ : ActiveTextFilter)) ++
        (exclEntry (dashWords true q) ++
        (optEntry "channel" (firstTokMatch channelTok q) ++
        optEntry "hashtag" (firstTokMatch hashTok q))),
        3 ≤ idRank f.id := by
      intro f hf
      simp only [List.mem_append] at hf
      rcases hf with h | h | h | h
      · rw [hA4 f h]; decide
      · rw [hA5 f h]; decide
      · rw [hA6 f h]; decide
      · rw [hA7 f h]; decide
    refine List.pairwise_append.mpr ⟨optEntry_pairwise _ _ _, ?_, ?_⟩
    swap
    · intro a ha b hb
      rw [hA3 a ha]
      rw [show idRank "intitle" = 2 from by decide]
      have := hrank3 b hb
      omega
    have hrank4 : ∀ f ∈ exclEntry (dashWords true q) ++
        (optEntry "channel" (firstTokMatch channelTok q) ++
        optEntry "hashtag" (firstTokMatch hashTok q)),
        4 ≤ idRank f.id := by
      intro f hf
      simp only [List.mem_append] at hf
      rcases hf with h | h | h
      · rw [hA5 f h]; decide
      · rw [hA6 f h]; decide
      · rw [hA7 f h]; decide
    refine List.pairwise_append.mpr ⟨?_, ?_, ?_⟩
    · exact List.pairwise_of_forall (by intro a b; exact le_rfl) |>.map _
        (fun a b h => h)
    swap
    · intro a ha b hb
      rw [hA4 a ha]
      rw [show idRank "exact" = 3 from by decide]
      have := hrank4 b hb
      omega
    have hrank5 : ∀ f ∈ optEntry "channel" (firstTokMatch channelTok q) ++
        optEntry "hashtag" (firstTokMatch hashTok q),
        5 ≤ idRank f.id := by
      intro f hf
      simp only [List.mem_append] at hf
      rcases hf with h | h
      · rw [hA6 f h]; decide
      · rw [hA7 f h]; decide
    refine List.pairwise_append.mpr ⟨exclEntry_pairwise _ _, ?_, ?_⟩
    swap
    · intro a ha b hb
      rw [hA5 a ha]
      rw [show idRank "exclude" = 4 from by decide]
      have := hrank5 b hb
      omega
    refine List.pairwise_append.mpr ⟨optEntry_pairwise _ _ _, optEntry_pairwise _ _ _, ?_⟩
    intro a ha b hb
    rw [hA6 a ha, hA7 b hb]
    decide
  · rw [parse_eq]
    simp only [List.append_assoc, List.countP_append]
    have hz : ∀ (i j : String) (x : Option (List Char)), i ≠ j →
        (optEntry i x).countP (fun f => f.id = j) = 0 := by
      intro i j x hij
      exact countP_eq_zero_of_ids _ i j (optEntry_ids i x) hij
    have hex : ∀ j : String, j ≠ "exact" →
        ((quotedSpans q).map (fun r => (⟨"exact", r⟩ : ActiveTextFilter))).countP
          (fun f => f.id = j) = 0 := by
      intro j hj
      exact countP_eq_zero_of_ids _ "exact" j hA4 (fun h => hj h.symm)
    have hdz : ∀ j : String, j ≠ "exclude" →
        (exclEntry (dashWords true q)).countP (fun f => f.id = j) = 0 := by
      intro j hj
      exact countP_eq_zero_of_ids _ "exclude" j hA5 (fun h => hj h.symm)
    refine ⟨?_, ?_, ?_, ?_, ?_, ?_⟩
    · rw [hz "before" "after" _ (by simp), hz "intitle" "after" _ (by simp),
        hz "channel" "after" _ (by simp), hz "hashtag" "after" _ (by simp),
        hex "after" (by simp), hdz "after" (by simp)]
      simpa using optEntry_countP "after" (firstTokMatch afterTok q) _
    · rw [hz "after" "before" _ (by simp), hz "intitle" "before" _ (by simp),
        hz "channel" "before" _ (by simp), hz "hashtag" "before" _ (by simp),
        hex "before" (by simp), hdz "before" (by simp)]
      simpa using optEntry_countP "before" (firstTokMatch beforeTok q) _
    · rw [hz "after" "intitle" _ (by simp), hz "before" "intitle" _ (by simp),
        hz "channel" "intitle" _ (by simp), hz "hashtag" "intitle" _ (by simp),
        hex "intitle" (by simp), hdz "intitle" (by simp)]
      simpa using optEntry_countP "intitle" (firstTokMatch intitleTok q) _
    · rw [hz "after" "channel" _ (by simp), hz "before" "channel" _ (by simp),
        hz "intitle" "channel" _ (by simp), hz "hashtag" "channel" _ (by simp),
        hex "channel" (by simp), hdz "channel" (by simp)]
      simpa using optEntry_countP "channel" (firstTokMatch channelTok q) _
    · rw [hz "after" "hashtag" _ (by simp), hz "before" "hashtag" _ (by simp),
        hz "intitle" "hashtag" _ (by simp), hz "channel" "hashtag" _ (by simp),
        hex "hashtag" (by simp), hdz "hashtag" (by simp)]
      simpa using optEntry_countP "hashtag" (firstTokMatch hashTok q) _
    · rw [hz "after" "exclude" _ (by simp), hz "before" "exclude" _ (by simp),
        hz "intitle" "exclude" _ (by simp), hz "channel" "exclude" _ (by simp),
        hz "hashtag" "exclude" _ (by simp), hex "exclude" (by simp)]
      simpa using exclEntry_countP (dashWords true q) _
  · intro p hp v hv
    rw [← firstTokMatch_eq_some_iff]
    have hblocks := mem_parse_block q ⟨p.1, v⟩ hv
    simp only [List.mem_cons, List.not_mem_nil, or_false] at hp
    rcases hp with hp | hp | hp | hp | hp <;> subst hp <;>
      simp only at hblocks <;>
      rcases hblocks with ⟨h, hm⟩ | ⟨h, hm⟩ | ⟨h, hm⟩ | ⟨h, hm⟩ |
        ⟨h, hm⟩ | ⟨h, hm⟩ | ⟨h, hm⟩ <;>
      first
        | exact mem_optEntry _ _ _ hm
        | simp at h

-- ─── C6: operator recognition is plain substring search ─────────────

/-- The regex tok(\S+) succeeds at position n of q capturing v: the
token occurs there literally, immediately followed by the non-empty
maximal non-whitespace run v, after which the string ends or continues
with whitespace.  No word boundary is required before the token. -/
def TokCaptureAt (tok q : List Char) (n : Nat) (v : List Char) : Prop :=
  ∃ rest, q.drop n = tok ++ v ++ rest ∧ v ≠ [] ∧
    (∀ c ∈ v, jsWS c = false) ∧
    (rest = [] ∨ ∃ d ds, rest = d :: ds ∧ jsWS d = true)

/-- The regex tok(\S+) succeeds at position n of q. -/
def TokMatchesAt (tok q : List Char) (n : Nat) : Prop :=
  ∃ v, TokCaptureAt tok q n v

theorem tokMatchAt_iff_capture (tok s v : List Char) :
    tokMatchAt tok s = some v ↔
      (∃ rest, s = tok ++ v ++ rest ∧ v ≠ [] ∧
        (∀ c ∈ v, jsWS c = false) ∧
        (rest = [] ∨ ∃ d ds, rest = d :: ds ∧ jsWS d = true)) := by
  constructor
  · intro h
    obtain ⟨hpre, d, ds, hdrop, hd, hv⟩ := tokMatchAt_some tok s v h
    obtain ⟨t, ht⟩ := List.isPrefixOf_iff_prefix.mp hpre
    have htd : t = s.drop tok.length := by rw [← ht, List.drop_left]
    refine ⟨ds.dropWhile nonWS, ?_, by rw [hv]; simp, ?_, ?_⟩
    · rw [← ht, htd, hdrop, hv]
      simp [List.takeWhile_append_dropWhile]
    · intro c hc
      rw [hv] at hc
      rcases List.mem_cons.mp hc with hc | hc
      · rw [hc]; exact hd
      · have := List.mem_takeWhile_imp hc
        simpa [nonWS] using this
    · cases hdw : ds.dropWhile nonWS with
      | nil => exact Or.inl rfl
      | cons e es =>
        refine Or.inr ⟨e, es, rfl, ?_⟩
        have := dropWhile_head_false nonWS ds e es hdw
        simpa [nonWS] using this
  · rintro ⟨rest, hs, hne, hnws, hrest⟩
    unfold tokMatchAt
    rw [if_pos (List.isPrefixOf_iff_prefix.mpr ⟨v ++ rest, by rw [hs]; simp⟩)]
    have hdrop : s.drop tok.length = v ++ rest := by
      rw [hs, List.append_assoc, List.drop_left]
    rw [hdrop]
    cases v with
    | nil => exact absurd rfl hne
    | cons d vs =>
      simp only [List.cons_append]
      rw [if_neg (by simp [hnws d (by simp)])]
      congr 2
      rw [List.takeWhile_append_of_pos (by
        intro c hc; simp [nonWS, hnws c (by simp [hc])])]
      cases rest with
      | nil => simp
      | cons e es =>
        rcases hrest with h | ⟨d2, ds2, heq, hwsd⟩
        · simp at h
        · injection heq with h1 _
          rw [List.takeWhile_cons, if_neg (by simp [nonWS, h1, hwsd])]
          simp

theorem firstTokMatch_iff_capture (tok q v : List Char) :
    firstTokMatch tok q = some v ↔
      ∃ n, TokCaptureAt tok q n v ∧ ∀ j < n, ¬ TokMatchesAt tok q j := by
  rw [firstTokMatch_eq_some_iff]
  constructor
  · rintro ⟨n, hn, hj⟩
    refine ⟨n, (tokMatchAt_iff_capture tok _ v).mp hn, ?_⟩
    intro j hji ⟨w, hw⟩
    have := (tokMatchAt_iff_capture tok (q.drop j) w).mpr hw
    rw [hj j hji] at this
    simp at this
  · rintro ⟨n, hn, hj⟩
    refine ⟨n, (tokMatchAt_iff_capture tok _ v).mpr hn, ?_⟩
    intro j hji
    cases hm : tokMatchAt tok (q.drop j) with
    | none => rfl
    | some w =>
      exact absurd ⟨w, (tokMatchAt_iff_capture tok _ w).mp hm⟩ (hj j hji)

/-- C6 counterexample: the operator token embedded inside the larger
token "grafter:2024-01-01" still produces an after entry, so recognition
is not word-boundary-safe. -/
theorem c6_counterexample :
    (⟨"after", "2024-01-01".data⟩ : ActiveTextFilter) ∈
      parseQueryFilters "grafter:2024-01-01".data := by
  decide

/-- C6 (amended): parseQueryFilters recognizes after:, before:, intitle:
and channel: by plain substring search: an entry with that id and value
v exists exactly when the token occurs somewhere in the string (even
embedded inside a larger token) immediately followed by a non-empty
non-whitespace run, and v is the run captured verbatim at the leftmost
such occurrence. -/
theorem c6_substring_match (q : List Char) :
    ∀ p ∈ [("after", afterTok), ("before", beforeTok),
        ("intitle", intitleTok), ("channel", channelTok)],
      ∀ v, ((⟨p.1, v⟩ : ActiveTextFilter) ∈ parseQueryFilters q ↔
        ∃ n, TokCaptureAt p.2 q n v ∧ ∀ j < n, ¬ TokMatchesAt p.2 q j) := by
  intro p hp v
  rw [← firstTokMatch_iff_capture]
  simp only [List.mem_cons, List.not_mem_nil, or_false] at hp
  constructor
  · intro hv
    have hblocks := mem_parse_block q ⟨p.1, v⟩ hv
    rcases hp with hp | hp | hp | hp <;> subst hp <;>
      simp only at hblocks <;>
      rcases hblocks with ⟨h, hm⟩ | ⟨h, hm⟩ | ⟨h, hm⟩ | ⟨h, hm⟩ |
        ⟨h, hm⟩ | ⟨h, hm⟩ | ⟨h, hm⟩ <;>
      first
        | exact mem_optEntry _ _ _ hm
        | simp at h
  · intro h
    rcases hp with hp | hp | hp | hp <;> subst hp <;>
      rw [parse_eq] <;> simp [optEntry, h]

/-- C6 (witness): the amended substring-match characterization applied to
the after: token embedded in "grafter:2024". -/
theorem c6_substring_match_witness :
    ("after", afterTok) ∈ [("after", afterTok), ("before", beforeTok),
        ("intitle", intitleTok), ("channel", channelTok)] ∧
      ((⟨"after", "2024".data⟩ : ActiveTextFilter) ∈
          parseQueryFilters "grafter:2024".data ↔
        ∃ n, TokCaptureAt afterTok "grafter:2024".data n "2024".data ∧
          ∀ j < n, ¬ TokMatchesAt afterTok "grafter:2024".data j) :=
  ⟨by decide, c6_substring_match "grafter:2024".data ("after", afterTok)
    (by decide) "2024".data⟩

-- ─── C5: positions of the exclude markers ───────────────────────────

/-- Position i of q starts a dash followed by a non-empty run of
non-whitespace characters. -/
def dashRunAt (q : List Char) (i : Nat) : Bool :=
  decide ((q.drop i).head? = some '-') &&
    decide ((q.drop i).tail.takeWhile nonWS ≠ [])

/-- The character before position i of q is whitespace (false at the
string start or beyond the end). -/
def prevWSAt (q : List Char) (i : Nat) : Bool :=
  (((q.drop (i - 1)).head?).map jsWS).getD false

/-- Position i of q is matched by the exclude rule: a dash with a
non-empty non-whitespace run after it, either at the very start (where
the ^ alternative applies when the scan flag b is set) or preceded by a
whitespace character. -/
def dashPosOK (b : Bool) (q : List Char) (i : Nat) : Bool :=
  dashRunAt q i && ((decide (i = 0) && b) || (decide (0 < i) && prevWSAt q i))

/-- The word the exclude rule captures at position i: the maximal
non-whitespace run after the dash. -/
def wordAt (q : List Char) (i : Nat) : List Char :=
  (q.drop (i + 1)).takeWhile nonWS

theorem dashRunAt_shift (q : List Char) (m j : Nat) :
    dashRunAt (q.drop m) j = dashRunAt q (m + j) := by
  unfold dashRunAt
  rw [List.drop_drop]

theorem prevWSAt_shift (q : List Char) (m j : Nat) (hj : 1 ≤ j) :
    prevWSAt (q.drop m) j = prevWSAt q (m + j) := by
  unfold prevWSAt
  rw [List.drop_drop, show m + (j - 1) = m + j - 1 from by omega]

theorem wordAt_shift (q : List Char) (m j : Nat) :
    wordAt (q.drop m) j = wordAt q (m + j) := by
  unfold wordAt
  rw [List.drop_drop, Nat.add_assoc]

theorem head_drop_append_mem (a s : List Char) (k : Nat) (hk : k < a.length)
    (x : Char) (hx : ((a ++ s).drop k).head? = some x) : x ∈ a := by
  rw [List.drop_append_of_le_length (by omega)] at hx
  have hne : a.drop k ≠ [] := by
    have := List.length_drop k a
    intro hcon
    rw [hcon] at this
    simp at this
    omega
  rw [List.head?_append_of_ne_nil _ hne] at hx
  exact List.drop_subset k a (List.mem_of_mem_head? hx)

theorem dashPosOK_false_interior (b : Bool) (q : List Char) (i : Nat)
    (hi : 0 < i)
    (hhead : ∀ x, (q.drop (i - 1)).head? = some x → jsWS x = false) :
    dashPosOK b q i = false := by
  unfold dashPosOK prevWSAt
  have h1 : decide (i = 0) = false := by simp; omega
  cases hd : (q.drop (i - 1)).head? with
  | none => simp [h1, hd]
  | some d => simp [h1, hd, hhead d hd]

theorem filter_range_nil (P : Nat → Bool) (m : Nat)
    (h : ∀ j < m, P j = false) : (List.range m).filter P = [] := by
  rw [List.filter_eq_nil_iff]
  intro a ha
  simp [h a (List.mem_range.mp ha)]

theorem filter_range_singleton (P : Nat → Bool) (m i0 : Nat) (hi0 : i0 < m)
    (hP : P i0 = true) (hothers : ∀ j < m, j ≠ i0 → P j = false) :
    (List.range m).filter P = [i0] := by
  induction m with
  | zero => omega
  | succ M ih =>
    rw [List.range_succ, List.filter_append]
    by_cases hM : i0 = M
    · rw [filter_range_nil P M (fun j hj => hothers j (by omega) (by omega))]
      subst hM
      simp [hP]
    · rw [ih (by omega) (fun j hj hne => hothers j (by omega) hne)]
      have : P M = false := hothers M (by omega) (fun h => hM h.symm)
      simp [this]

theorem dash_decomp (b : Bool) (q : List Char) (m : Nat) (S : List Nat)
    (hm : 1 ≤ m) (hmlen : m ≤ q.length)
    (hS : (List.range m).filter (dashPosOK b q) = S)
    (hj0 : dashPosOK b q m = false) :
    ((List.range q.length).filter (dashPosOK b q)).map (wordAt q) =
      S.map (wordAt q) ++
      ((List.range (q.drop m).length).filter
        (dashPosOK false (q.drop m))).map (wordAt (q.drop m)) := by
  have hql : q.length = m + (q.drop m).length := by
    rw [List.length_drop]
    omega
  rw [hql, List.range_add, List.filter_append, hS, List.map_append]
  congr 1
  rw [List.map_filter]
  have hcongr : ∀ j ∈ List.range (q.drop m).length,
      (dashPosOK b q ∘ (fun x => m + x)) j = dashPosOK false (q.drop m) j := by
    intro j hj
    simp only [Function.comp_apply]
    cases j with
    | zero =>
      rw [Nat.add_zero, hj0]
      unfold dashPosOK
      simp
    | succ k =>
      unfold dashPosOK
      rw [dashRunAt_shift, prevWSAt_shift q m (k + 1) (by omega)]
      have h1 : decide (m + (k + 1) = 0) = false := decide_eq_false (by omega)
      have h2 : decide (0 < m + (k + 1)) = true := decide_eq_true (by omega)
      have h3 : decide ((k + 1 : Nat) = 0) = false := decide_eq_false (by omega)
      have h4 : decide (0 < (k + 1 : Nat)) = true := decide_eq_true (by omega)
      rw [h1, h2, h3, h4]
      simp
  rw [List.filter_congr hcongr]
  rw [List.map_map]
  apply List.map_congr_left
  intro j hj
  simp only [Function.comp_apply]
  rw [wordAt_shift]

theorem takeWhile_length_le (p : Char → Bool) : ∀ l : List Char,
    (l.takeWhile p).length ≤ l.length := by
  intro l
  induction l with
  | nil => simp
  | cons c cs ih =>
    rw [List.takeWhile_cons]
    split
    · simpa using ih
    · simp

theorem dashWords_eq_positions : ∀ (n : Nat) (q : List Char), q.length ≤ n →
    ∀ b, dashWords b q =
      ((List.range q.length).filter (dashPosOK b q)).map (wordAt q) := by
  intro n
  induction n with
  | zero =>
    intro q hq b
    have hqe : q = [] := by
      cases q with
      | nil => rfl
      | cons c cs => simp at hq
    subst hqe
    simp [dashWords_nil]
  | succ N ih =>
    intro q hq b
    cases q with
    | nil => simp [dashWords_nil]
    | cons c cs =>
      simp only [List.length_cons] at hq
      rw [dashWords_cons]
      by_cases hA : b = true ∧ c = '-' ∧ cs.takeWhile nonWS ≠ []
      · rw [if_pos hA]
        obtain ⟨hb, hc, hrun⟩ := hA
        subst hb hc
        have hcs : cs.takeWhile nonWS ++ cs.dropWhile nonWS = cs :=
          List.takeWhile_append_dropWhile nonWS cs
        have hpre : ('-' :: cs) = ('-' :: cs.takeWhile nonWS) ++
            cs.dropWhile nonWS := by
          rw [List.cons_append, hcs]
        have hmlen : (cs.takeWhile nonWS).length + 1 ≤ ('-' :: cs).length := by
          have := takeWhile_length_le nonWS cs
          simp only [List.length_cons]
          omega
        have hdropm : ('-' :: cs).drop ((cs.takeWhile nonWS).length + 1) =
            cs.dropWhile nonWS := by
          rw [List.drop_succ_cons]
          nth_rewrite 2 [← hcs]
          rw [List.drop_left]
        have hinterior : ∀ i, 1 ≤ i → i ≤ (cs.takeWhile nonWS).length + 1 →
            dashPosOK true ('-' :: cs) i = false := by
          intro i h1 h2
          apply dashPosOK_false_interior _ _ _ (by omega)
          intro x hx
          rw [hpre] at hx
          have hxmem : x ∈ '-' :: cs.takeWhile nonWS :=
            head_drop_append_mem _ _ _ (by simp; omega) x hx
          rcases List.mem_cons.mp hxmem with h | h
          · rw [h]; decide
          · have := List.mem_takeWhile_imp h
            simpa [nonWS] using this
        have hP0 : dashPosOK true ('-' :: cs) 0 = true := by
          unfold dashPosOK dashRunAt
          simp [hrun]
        rw [dash_decomp true ('-' :: cs) ((cs.takeWhile nonWS).length + 1) [0]
          (by omega) hmlen
          (filter_range_singleton _ _ 0 (by omega) hP0
            (fun j hj hne => hinterior j (by omega) (by omega)))
          (hinterior _ (by omega) (by omega))]
        rw [hdropm]
        have hrest : (cs.dropWhile nonWS).length ≤ N := by
          have := dropWhile_length_le nonWS cs
          omega
        rw [← ih (cs.dropWhile nonWS) hrest false]
        show _ = [wordAt ('-' :: cs) 0] ++ _
        unfold wordAt
        simp
      · rw [if_neg hA]
        by_cases hB : jsWS c ∧ cs.head? = some '-' ∧
            cs.tail.takeWhile nonWS ≠ []
        · rw [if_pos hB]
          obtain ⟨hwc, hhead, hrun⟩ := hB
          obtain ⟨ds, hds⟩ : ∃ ds, cs = '-' :: ds := by
            cases cs with
            | nil => simp at hhead
            | cons c2 ds =>
              simp only [List.head?_cons, Option.some.injEq] at hhead
              exact ⟨ds, by rw [hhead]⟩
          subst hds
          simp only [List.tail_cons] at hrun ⊢
          have hcs : ds.takeWhile nonWS ++ ds.dropWhile nonWS = ds :=
            List.takeWhile_append_dropWhile nonWS ds
          have hpre : (c :: '-' :: ds) = (c :: '-' :: ds.takeWhile nonWS) ++
              ds.dropWhile nonWS := by
            simp only [List.cons_append, List.cons.injEq, true_and]
            rw [hcs]
          have hmlen : (ds.takeWhile nonWS).length + 2 ≤
              (c :: '-' :: ds).length := by
            have := takeWhile_length_le nonWS ds
            simp only [List.length_cons]
            omega
          have hdropm : (c :: '-' :: ds).drop ((ds.takeWhile nonWS).length + 2) =
              ds.dropWhile nonWS := by
            rw [show (ds.takeWhile nonWS).length + 2 =
              ((ds.takeWhile nonWS).length + 1) + 1 from rfl,
              List.drop_succ_cons, List.drop_succ_cons]
            nth_rewrite 2 [← hcs]
            rw [List.drop_left]
          have hinterior : ∀ i, 2 ≤ i → i ≤ (ds.takeWhile nonWS).length + 2 →
              dashPosOK b (c :: '-' :: ds) i = false := by
            intro i h1 h2
            apply dashPosOK_false_interior _ _ _ (by omega)
            intro x hx
            have hx2 : ((('-' :: ds.takeWhile nonWS) ++
                ds.dropWhile nonWS).drop (i - 2)).head? = some x := by
              rw [show (('-' :: ds.takeWhile nonWS) ++
                  ds.dropWhile nonWS) = (c :: '-' :: ds).drop 1 from by
                    rw [hpre]; rfl, List.drop_drop,
                show 1 + (i - 2) = i - 1 from by omega]
              exact hx
            have hxmem : x ∈ '-' :: ds.takeWhile nonWS :=
              head_drop_append_mem _ _ _ (by simp; omega) x hx2
            rcases List.mem_cons.mp hxmem with h | h
            · rw [h]; decide
            · have := List.mem_takeWhile_imp h
              simpa [nonWS] using this
          have hcne : ¬(c = '-') := by
            intro h
            rw [h] at hwc
            simp [jsWS] at hwc
          have hP0 : dashPosOK b (c :: '-' :: ds) 0 = false := by
            unfold dashPosOK dashRunAt
            simp [hcne]
          have hP1 : dashPosOK b (c :: '-' :: ds) 1 = true := by
            unfold dashPosOK dashRunAt prevWSAt
            simp [hrun, hwc]
          rw [dash_decomp b (c :: '-' :: ds) ((ds.takeWhile nonWS).length + 2)
            [1] (by omega) hmlen
            (filter_range_singleton _ _ 1 (by omega) hP1 (by
              intro j hj hne
              rcases Nat.lt_or_ge j 2 with h | h
              · have hj01 : j = 0 := by omega
                rw [hj01]; exact hP0
              · exact hinterior j h (by omega)))
            (hinterior _ (by omega) (by omega))]
          rw [hdropm]
          have hrest : (ds.dropWhile nonWS).length ≤ N := by
            have := dropWhile_length_le nonWS ds
            simp only [List.length_cons] at hq
            omega
          rw [← ih (ds.dropWhile nonWS) hrest false]
          show _ = [wordAt (c :: '-' :: ds) 1] ++ _
          unfold wordAt
          simp
        · rw [if_neg hB]
          have hP0 : dashPosOK b (c :: cs) 0 = false := by
            unfold dashPosOK dashRunAt
            cases hb : b with
            | false => simp
            | true =>
              rw [hb] at hA
              simp only [true_and] at hA
              by_cases hc : c = '-'
              · have hrun : cs.takeWhile nonWS = [] := by
                  by_contra hcon
                  exact hA ⟨hc, hcon⟩
                simp [hrun]
              · simp [hc]
          have hP1 : dashPosOK b (c :: cs) 1 = false := by
            unfold dashPosOK dashRunAt prevWSAt
            simp only [List.drop_succ_cons, List.drop_zero, List.drop_nil,
              List.head?_cons, Option.map_some, Option.getD_some]
            by_cases h1 : jsWS c
            · by_cases h2 : cs.head? = some '-'
              · by_cases h3 : cs.tail.takeWhile nonWS ≠ []
                · exact absurd ⟨h1, h2, h3⟩ hB
                · simp only [ne_eq, not_not] at h3
                  simp [h3]
              · simp [h2]
            · simp [h1]
          rw [dash_decomp b (c :: cs) 1 [] (by omega) (by simp)
            (filter_range_nil _ _ (by
              intro j hj
              have : j = 0 := by omega
              rw [this]; exact hP0)) hP1]
          rw [show (c :: cs).drop 1 = cs from rfl,
            ← ih cs (by omega) false]
          simp

/-- C5: the exclude rule of parseQueryFilters matches exactly the
positions holding a dash immediately followed by a non-empty
non-whitespace run, where the dash is at the very start of the string or
preceded by whitespace (a hyphen inside a longer token is not a
marker); the captured words, in order of appearance, are the maximal
non-whitespace runs after each matched dash; and the parse contains
exactly one exclude entry, whose value is those words space-joined,
when there is at least one match, and none otherwise. -/
theorem c5_exclude_rule (q : List Char) :
    dashWords true q =
      ((List.range q.length).filter (dashPosOK true q)).map (wordAt q) ∧
    (parseQueryFilters q).filter (fun f => f.id = "exclude") =
      (if dashWords true q = [] then []
       else [⟨"exclude", joinSpace (dashWords true q)⟩]) := by
  refine ⟨dashWords_eq_positions q.length q le_rfl true, ?_⟩
  rw [parse_eq]
  simp only [List.filter_append]
  have hopt : ∀ (i : String) (x : Option (List Char)), i ≠ "exclude" →
      (optEntry i x).filter (fun f => f.id = "exclude") = [] := by
    intro i x hi
    rw [List.filter_eq_nil_iff]
    intro f hf
    simp [optEntry_ids i x f hf, hi]
  have hexact : ((quotedSpans q).map
      (fun r => (⟨"exact", r⟩ : ActiveTextFilter))).filter
        (fun f => f.id = "exclude") = [] := by
    rw [List.filter_eq_nil_iff]
    intro f hf
    simp only [List.mem_map] at hf
    obtain ⟨r, -, hr⟩ := hf
    simp [← hr]
  rw [hopt "after" _ (by simp), hopt "before" _ (by simp),
    hopt "intitle" _ (by simp), hopt "channel" _ (by simp),
    hopt "hashtag" _ (by simp), hexact]
  cases hd : dashWords true q with
  | nil => simp [exclEntry]
  | cons w ws =>
    simp [exclEntry, List.filter_cons]

-- ─── C2: machinery, part 1: quote-freeness ──────────────────────────

theorem mem_replTok (tok : List Char) : ∀ (n : Nat) (l : List Char),
    l.length ≤ n → ∀ x ∈ replTok tok l, x ∈ l := by
  intro n
  induction n with
  | zero =>
    intro l hl x hx
    cases l with
    | nil => simpa [replTok_nil] using hx
    | cons c cs => simp at hl
  | succ N ih =>
    intro l hl x hx
    cases l with
    | nil => simpa [replTok_nil] using hx
    | cons c cs =>
      simp only [List.length_cons] at hl
      cases hm : tokMatchAt tok (c :: cs) with
      | some v =>
        rw [replTok_cons_some tok c cs v hm] at hx
        have hv := tokMatchAt_some_length tok _ v hm
        have hlen := List.length_drop (tok.length + v.length) (c :: cs)
        simp only [List.length_cons] at hlen
        exact List.drop_subset _ _
          (ih _ (by omega) x hx)
      | none =>
        rw [replTok_cons_none tok c cs hm] at hx
        rcases List.mem_cons.mp hx with h | h
        · simp [h]
        · exact List.mem_cons_of_mem c (ih cs (by omega) x h)

theorem mem_replDash : ∀ (n : Nat) (b : Bool) (l : List Char),
    l.length ≤ n → ∀ x ∈ replDash b l, x ∈ l := by
  intro n
  induction n with
  | zero =>
    intro b l hl x hx
    cases l with
    | nil => simpa [replDash_nil] using hx
    | cons c cs => simp at hl
  | succ N ih =>
    intro b l hl x hx
    cases l with
    | nil => simpa [replDash_nil] using hx
    | cons c cs =>
      simp only [List.length_cons] at hl
      rw [replDash_cons] at hx
      have hd1 := dropWhile_length_le nonWS cs
      have hd2 := dropWhile_length_le nonWS cs.tail
      have ht := List.length_tail cs
      by_cases hA : b = true ∧ c = '-' ∧ cs.takeWhile nonWS ≠ []
      · rw [if_pos hA] at hx
        exact List.mem_cons_of_mem c
          ((List.dropWhile_suffix nonWS).subset (ih false _ (by omega) x hx))
      · rw [if_neg hA] at hx
        by_cases hB : jsWS c ∧ cs.head? = some '-' ∧
            cs.tail.takeWhile nonWS ≠ []
        · rw [if_pos hB] at hx
          have h1 : x ∈ cs.tail :=
            (List.dropWhile_suffix nonWS).subset (ih false _ (by omega) x hx)
          exact List.mem_cons_of_mem c (List.tail_subset cs h1)
        · rw [if_neg hB] at hx
          rcases List.mem_cons.mp hx with h | h
          · simp [h]
          · exact List.mem_cons_of_mem c (ih false cs (by omega) x h)

theorem mem_collapseWS : ∀ (n : Nat) (l : List Char), l.length ≤ n →
    ∀ x ∈ collapseWS l, x ∈ l ∨ x = ' ' := by
  intro n
  induction n with
  | zero =>
    intro l hl x hx
    cases l with
    | nil => simpa [collapseWS_nil] using hx
    | cons c cs => simp at hl
  | succ N ih =>
    intro l hl x hx
    cases l with
    | nil => simpa [collapseWS_nil] using hx
    | cons c cs =>
      simp only [List.length_cons] at hl
      rw [collapseWS_cons] at hx
      have hd := dropWhile_length_le jsWS cs
      by_cases hc : jsWS c
      · rw [if_pos hc] at hx
        rcases List.mem_cons.mp hx with h | h
        · exact Or.inr h
        · rcases ih _ (by omega) x h with h2 | h2
          · exact Or.inl (List.mem_cons_of_mem c
              ((List.dropWhile_suffix jsWS).subset h2))
          · exact Or.inr h2
      · rw [if_neg hc] at hx
        rcases List.mem_cons.mp hx with h | h
        · exact Or.inl (by simp [h])
        · rcases ih cs (by omega) x h with h2 | h2
          · exact Or.inl (List.mem_cons_of_mem c h2)
          · exact Or.inr h2

theorem replQuoted_eq_self : ∀ (n : Nat) (l : List Char), l.length ≤ n →
    '"' ∉ l → replQuoted l = l := by
  intro n
  induction n with
  | zero =>
    intro l hl _
    cases l with
    | nil => exact replQuoted_nil
    | cons c cs => simp at hl
  | succ N ih =>
    intro l hl hq
    cases l with
    | nil => exact replQuoted_nil
    | cons c cs =>
      simp only [List.length_cons] at hl
      rw [replQuoted_cons, if_neg (by intro h; exact hq (by simp [h]))]
      rw [ih cs (by omega) (fun h => hq (List.mem_cons_of_mem c h))]

-- ─── C2: machinery, part 2: token-freeness ──────────────────────────

/-- No position of l matches the regex tok\S+. -/
def TokFree (tok l : List Char) : Prop :=
  ∀ i, tokMatchAt tok (l.drop i) = none

theorem tokFree_nil (tok : List Char) : TokFree tok [] := by
  intro i
  rw [List.drop_nil]
  exact tokMatchAt_nil tok

theorem tokFree_cons_iff (tok : List Char) (c : Char) (cs : List Char) :
    TokFree tok (c :: cs) ↔
      tokMatchAt tok (c :: cs) = none ∧ TokFree tok cs := by
  constructor
  · intro h
    refine ⟨h 0, fun i => ?_⟩
    have := h (i + 1)
    rwa [List.drop_succ_cons] at this
  · rintro ⟨h0, h⟩ i
    cases i with
    | zero => exact h0
    | succ j => rw [List.drop_succ_cons]; exact h j

theorem tokFree_drop (tok l : List Char) (h : TokFree tok l) (n : Nat) :
    TokFree tok (l.drop n) := by
  intro i
  rw [List.drop_drop]
  exact h (n + i)

theorem tokFree_suffix (tok s l : List Char) (hs : s <:+ l)
    (h : TokFree tok l) : TokFree tok s := by
  obtain ⟨t, ht⟩ := hs
  have : s = l.drop t.length := by rw [← ht, List.drop_left]
  rw [this]
  exact tokFree_drop tok l h t.length

theorem head_drop_eq_of_prefix (p l : List Char) (hp : p <+: l) (k : Nat)
    (d : Char) (hd : (p.drop k).head? = some d) :
    (l.drop k).head? = some d := by
  obtain ⟨t, ht⟩ := hp
  rw [← ht, List.drop_append_eq_append_drop]
  have hne : p.drop k ≠ [] := by
    intro h
    rw [h] at hd
    simp at hd
  rw [List.head?_append_of_ne_nil _ hne]
  exact hd

theorem tokMatchAt_isSome_extend (tok m t : List Char)
    (h : (tokMatchAt tok m).isSome = true) :
    (tokMatchAt tok (m ++ t)).isSome = true := by
  cases hm : tokMatchAt tok m with
  | none => rw [hm] at h; simp at h
  | some v =>
    obtain ⟨hpre, d, ds, hdrop, hdws, -⟩ := tokMatchAt_some tok m v hm
    unfold tokMatchAt
    rw [if_pos (List.isPrefixOf_iff_prefix.mpr
      ((List.isPrefixOf_iff_prefix.mp hpre).trans (List.prefix_append m t)))]
    rw [List.drop_append_eq_append_drop, hdrop]
    simp [hdws]

theorem tokFree_prefix (tok p l : List Char) (hp : p <+: l)
    (h : TokFree tok l) : TokFree tok p := by
  intro i
  cases hm : tokMatchAt tok (p.drop i) with
  | none => rfl
  | some v =>
    exfalso
    obtain ⟨t, ht⟩ := hp
    have hdrop : l.drop i = p.drop i ++ t.drop (i - p.length) := by
      rw [← ht, List.drop_append_eq_append_drop]
    have : (tokMatchAt tok (l.drop i)).isSome = true := by
      rw [hdrop]
      exact tokMatchAt_isSome_extend tok _ _ (by simp [hm])
    rw [h i] at this
    simp at this

theorem tokMatchAt_ws_head (tok : List Char) (d : Char) (X : List Char)
    (htok : ∀ t0 ts, tok = t0 :: ts → jsWS t0 = false)
    (htokne : tok ≠ []) (hd : jsWS d = true) :
    tokMatchAt tok (d :: X) = none := by
  cases tok with
  | nil => exact absurd rfl htokne
  | cons t0 ts =>
    unfold tokMatchAt
    rw [if_neg]
    intro hpre
    obtain ⟨u, hu⟩ := List.isPrefixOf_iff_prefix.mp hpre
    have : t0 = d := by
      have := congrArg List.head? hu
      simpa using this
    rw [this] at htok
    have := htok d ts rfl
    rw [hd] at this
    simp at this

theorem replTok_ws_head (tok : List Char) (d : Char) (ds : List Char)
    (htok : ∀ t0 ts, tok = t0 :: ts → jsWS t0 = false)
    (htokne : tok ≠ []) (hd : jsWS d = true) :
    replTok tok (d :: ds) = d :: replTok tok ds :=
  replTok_cons_none tok d ds (tokMatchAt_ws_head tok d ds htok htokne hd)

theorem tokMatchAt_some_drop (tok s v : List Char)
    (h : tokMatchAt tok s = some v) :
    s.drop (tok.length + v.length) = [] ∨
      ∃ d ds, s.drop (tok.length + v.length) = d :: ds ∧ jsWS d = true := by
  obtain ⟨rest, hs, -, -, hrest⟩ := (tokMatchAt_iff_capture tok s v).mp h
  have hdrop : s.drop (tok.length + v.length) = rest := by
    rw [hs, List.append_assoc, ← List.length_append tok v,
      ← List.append_assoc, List.drop_left]
  rw [hdrop]
  exact hrest

theorem takeWhile_ne_nil_head (p : Char → Bool) (l : List Char) :
    l.takeWhile p ≠ [] ↔ ∃ e, l.head? = some e ∧ p e = true := by
  cases l with
  | nil => simp
  | cons c cs =>
    rw [List.takeWhile_cons]
    by_cases h : p c
    · simp [h]
    · simp only [Bool.not_eq_true] at h
      simp [h]

theorem prefix_of_prefix_append (p x y : List Char) (h : p <+: x ++ y)
    (hl : p.length ≤ x.length) : p <+: x := by
  have heq := List.prefix_iff_eq_take.mp h
  rw [List.take_append_eq_append_take, Nat.sub_eq_zero_of_le hl,
    List.take_zero, List.append_nil] at heq
  rw [heq]
  exact List.take_prefix _ _

theorem prefix_drop_mono (p q : List Char) (h : p <+: q) (n : Nat) :
    p.drop n <+: q.drop n := by
  obtain ⟨t, ht⟩ := h
  rw [← ht, List.drop_append_eq_append_drop]
  exact List.prefix_append _ _

theorem tokMatchAt_none_elim (tok s : List Char) (h : tokMatchAt tok s = none)
    (hpre : tok <+: s) :
    s.drop tok.length = [] ∨
      ∃ d ds, s.drop tok.length = d :: ds ∧ jsWS d = true := by
  unfold tokMatchAt at h
  rw [if_pos (List.isPrefixOf_iff_prefix.mpr hpre)] at h
  cases hd : s.drop tok.length with
  | nil => exact Or.inl rfl
  | cons d ds =>
    rw [hd] at h
    dsimp only at h
    by_cases hw : jsWS d
    · exact Or.inr ⟨d, ds, rfl, hw⟩
    · rw [if_neg hw] at h
      simp at h

/-- Gluing safety: when the match of tok\S+ fails at c :: cs, it still
fails after cs is replaced by any of its prefixes followed by nothing or
by whitespace-headed residue. -/
theorem tokMatchAt_none_glue (tok : List Char) (c : Char) (cs a r : List Char)
    (htokne : tok ≠ []) (htok : ∀ x ∈ tok, jsWS x = false)
    (hnone : tokMatchAt tok (c :: cs) = none)
    (ha : a <+: cs)
    (hr : r = [] ∨ ∃ d ds, r = d :: ds ∧ jsWS d = true) :
    tokMatchAt tok (c :: (a ++ r)) = none := by
  cases hm : tokMatchAt tok (c :: (a ++ r)) with
  | none => rfl
  | some v =>
    exfalso
    obtain ⟨hpre0, d0, ds0, hdrop0, hd0ws, -⟩ := tokMatchAt_some tok _ v hm
    have hpre : tok <+: (c :: a) ++ r := by
      rw [List.cons_append]
      exact List.isPrefixOf_iff_prefix.mp hpre0
    by_cases hlen : tok.length ≤ a.length + 1
    · have hta : tok <+: c :: a :=
        prefix_of_prefix_append tok (c :: a) r hpre (by simpa using hlen)
      have htcs : tok <+: c :: cs :=
        hta.trans (List.cons_prefix_cons.mpr ⟨rfl, ha⟩)
      rcases Nat.lt_or_ge tok.length (a.length + 1) with hlt | hge
      · have hpos : 0 < ((c :: a).drop tok.length).length := by
          rw [List.length_drop, List.length_cons]
          omega
        have hne : (c :: a).drop tok.length ≠ [] :=
          List.ne_nil_of_length_pos hpos
        rw [← List.cons_append] at hdrop0
        rw [List.drop_append_eq_append_drop] at hdrop0
        have hhead : ((c :: a).drop tok.length).head? = some d0 := by
          have := congrArg List.head? hdrop0
          rw [List.head?_append_of_ne_nil _ hne] at this
          simpa using this
        have hcs_drop : ((c :: cs).drop tok.length).head? = some d0 := by
          obtain ⟨t2, ht2⟩ := List.cons_prefix_cons.mpr
            (⟨rfl, ha⟩ : c = c ∧ a <+: cs)
          rw [← ht2, List.drop_append_eq_append_drop,
            List.head?_append_of_ne_nil _ hne]
          exact hhead
        rcases tokMatchAt_none_elim tok (c :: cs) hnone htcs with
          hnil | ⟨e, es, hees, hews⟩
        · rw [hnil] at hcs_drop
          simp at hcs_drop
        · rw [hees] at hcs_drop
          simp only [List.head?_cons, Option.some.injEq] at hcs_drop
          have hcon : jsWS d0 = true := by
            rw [← hcs_drop]
            exact hews
          rw [hcon] at hd0ws
          simp at hd0ws
      · have heq : tok.length = a.length + 1 := Nat.le_antisymm hlen hge
        have htok_eq : tok = c :: a := hta.eq_of_length (by simpa using heq)
        rw [← List.cons_append] at hdrop0
        have hL : tok.length = (c :: a).length := by
          rw [htok_eq]
        rw [hL, List.drop_left] at hdrop0
        rcases hr with hrnil | ⟨e, es, hees, hews⟩
        · rw [hrnil] at hdrop0
          simp at hdrop0
        · rw [hees] at hdrop0
          injection hdrop0 with h1 _
          have hcon : jsWS d0 = true := by
            rw [← h1]
            exact hews
          rw [hcon] at hd0ws
          simp at hd0ws
    · push_neg at hlen
      have hdropr : tok.drop (a.length + 1) <+: r := by
        have h1 := prefix_drop_mono tok ((c :: a) ++ r) hpre (a.length + 1)
        have h2 : ((c :: a) ++ r).drop (a.length + 1) = r := by
          have hcal : (c :: a).length = a.length + 1 := by
            rw [List.length_cons]
          rw [← hcal, List.drop_left]
        rw [h2] at h1
        exact h1
      have hpos : 0 < (tok.drop (a.length + 1)).length := by
        rw [List.length_drop]
        omega
      cases hdtok : tok.drop (a.length + 1) with
      | nil => rw [hdtok] at hpos; simp at hpos
      | cons d ds =>
        have hd_mem : d ∈ tok := by
          apply List.mem_of_mem_drop (n := a.length + 1)
          rw [hdtok]
          exact List.mem_cons_self d ds
        have hd_nonws := htok d hd_mem
        rw [hdtok] at hdropr
        rcases hr with hrnil | ⟨e, es, hees, hews⟩
        · rw [hrnil] at hdropr
          have := List.prefix_nil.mp hdropr
          simp at this
        · rw [hees] at hdropr
          obtain ⟨t, ht⟩ := hdropr
          rw [List.cons_append] at ht
          injection ht with h1 _
          rw [h1] at hd_nonws
          rw [hews] at hd_nonws
          simp at hd_nonws

-- ─── C2: machinery, part 3: replTok establishes and preserves TokFree ─

/-- Shape of a replTok output seen from the original list: an untouched
prefix followed by a residue that is empty or whitespace-headed. -/
theorem replTok_decomp (tok : List Char) (htokne : tok ≠ [])
    (htok : ∀ x ∈ tok, jsWS x = false) :
    ∀ (n : Nat) (l : List Char), l.length ≤ n →
      ∃ a r, replTok tok l = a ++ r ∧ a <+: l ∧
        (r = [] ∨ ∃ d ds, r = d :: ds ∧ jsWS d = true) := by
  intro n
  induction n with
  | zero =>
    intro l hl
    have hnil : l = [] := List.eq_nil_of_length_eq_zero (Nat.le_zero.mp hl)
    subst hnil
    exact ⟨[], [], by rw [replTok_nil]; rfl, List.nil_prefix, Or.inl rfl⟩
  | succ m ih =>
    intro l hl
    cases l with
    | nil => exact ⟨[], [], by rw [replTok_nil]; rfl, List.nil_prefix, Or.inl rfl⟩
    | cons c cs =>
      simp only [List.length_cons] at hl
      cases hm : tokMatchAt tok (c :: cs) with
      | none =>
        obtain ⟨a, r, heq, hpre, hr⟩ := ih cs (by omega)
        exact ⟨c :: a, r,
          by rw [replTok_cons_none tok c cs hm, heq, List.cons_append],
          List.cons_prefix_cons.mpr ⟨rfl, hpre⟩, hr⟩
      | some v =>
        rw [replTok_cons_some tok c cs v hm]
        rcases tokMatchAt_some_drop tok (c :: cs) v hm with
          hnil | ⟨d, ds, hdds, hdws⟩
        · rw [hnil, replTok_nil]
          exact ⟨[], [], rfl, List.nil_prefix, Or.inl rfl⟩
        · rw [hdds]
          refine ⟨[], d :: replTok tok ds, ?_, List.nil_prefix,
            Or.inr ⟨d, replTok tok ds, rfl, hdws⟩⟩
          rw [List.nil_append]
          exact replTok_ws_head tok d ds
            (fun t0 ts h => htok t0 (by rw [h]; exact List.mem_cons_self t0 ts))
            htokne hdws

/-- A token-free string is a fixed point of the tok\S+ removal pass. -/
theorem replTok_eq_self (tok : List Char) :
    ∀ (n : Nat) (l : List Char), l.length ≤ n → TokFree tok l →
      replTok tok l = l := by
  intro n
  induction n with
  | zero =>
    intro l hl _
    have hnil : l = [] := List.eq_nil_of_length_eq_zero (Nat.le_zero.mp hl)
    subst hnil
    exact replTok_nil tok
  | succ m ih =>
    intro l hl hfree
    cases l with
    | nil => exact replTok_nil tok
    | cons c cs =>
      simp only [List.length_cons] at hl
      obtain ⟨h0, htail⟩ := (tokFree_cons_iff tok c cs).mp hfree
      rw [replTok_cons_none tok c cs h0, ih cs (by omega) htail]

/-- The tok\S+ removal pass leaves no residual match of its own token. -/
theorem tokFree_replTok_self (tok : List Char) (htokne : tok ≠ [])
    (htok : ∀ x ∈ tok, jsWS x = false) :
    ∀ (n : Nat) (l : List Char), l.length ≤ n →
      TokFree tok (replTok tok l) := by
  intro n
  induction n with
  | zero =>
    intro l hl
    have hnil : l = [] := List.eq_nil_of_length_eq_zero (Nat.le_zero.mp hl)
    subst hnil
    rw [replTok_nil]
    exact tokFree_nil tok
  | succ m ih =>
    intro l hl
    cases l with
    | nil => rw [replTok_nil]; exact tokFree_nil tok
    | cons c cs =>
      simp only [List.length_cons] at hl
      cases hm : tokMatchAt tok (c :: cs) with
      | some v =>
        rw [replTok_cons_some tok c cs v hm]
        have htl : 1 ≤ tok.length := List.length_pos.mpr htokne
        have hvl := tokMatchAt_some_length tok _ v hm
        have hdl : ((c :: cs).drop (tok.length + v.length)).length ≤ m := by
          rw [List.length_drop, List.length_cons]
          omega
        exact ih _ hdl
      | none =>
        rw [replTok_cons_none tok c cs hm]
        rw [tokFree_cons_iff]
        refine ⟨?_, ih cs (by omega)⟩
        obtain ⟨a, r, heq, hpre, hr⟩ :=
          replTok_decomp tok htokne htok cs.length cs le_rfl
        rw [heq]
        exact tokMatchAt_none_glue tok c cs a r htokne htok hm hpre hr

/-- Any other tok2\S+ removal pass preserves token-freeness for tok. -/
theorem tokFree_replTok (tok tok2 : List Char) (htokne : tok ≠ [])
    (htok : ∀ x ∈ tok, jsWS x = false)
    (htok2ne : tok2 ≠ []) (htok2 : ∀ x ∈ tok2, jsWS x = false) :
    ∀ (n : Nat) (l : List Char), l.length ≤ n → TokFree tok l →
      TokFree tok (replTok tok2 l) := by
  intro n
  induction n with
  | zero =>
    intro l hl _
    have hnil : l = [] := List.eq_nil_of_length_eq_zero (Nat.le_zero.mp hl)
    subst hnil
    rw [replTok_nil]
    exact tokFree_nil tok
  | succ m ih =>
    intro l hl hfree
    cases l with
    | nil => rw [replTok_nil]; exact tokFree_nil tok
    | cons c cs =>
      simp only [List.length_cons] at hl
      cases hm : tokMatchAt tok2 (c :: cs) with
      | some v =>
        rw [replTok_cons_some tok2 c cs v hm]
        have htl : 1 ≤ tok2.length := List.length_pos.mpr htok2ne
        have hvl := tokMatchAt_some_length tok2 _ v hm
        have hdl : ((c :: cs).drop (tok2.length + v.length)).length ≤ m := by
          rw [List.length_drop, List.length_cons]
          omega
        exact ih _ hdl (tokFree_drop tok _ hfree _)
      | none =>
        rw [replTok_cons_none tok2 c cs hm]
        obtain ⟨h0, htail⟩ := (tokFree_cons_iff tok c cs).mp hfree
        rw [tokFree_cons_iff]
        refine ⟨?_, ih cs (by omega) htail⟩
        obtain ⟨a, r, heq, hpre, hr⟩ :=
          replTok_decomp tok2 htok2ne htok2 cs.length cs le_rfl
        rw [heq]
        exact tokMatchAt_none_glue tok c cs a r htokne htok h0 hpre hr

-- ─── C2: machinery, part 4: the dash removal pass ───────────────────

/-- No interior match of the \s-\S+ alternative anywhere in l. -/
def NoDashW : List Char → Prop
  | [] => True
  | c :: cs =>
    ¬(jsWS c = true ∧ cs.head? = some '-' ∧ cs.tail.takeWhile nonWS ≠ []) ∧
      NoDashW cs

/-- No match of the ^-\S+ alternative at the start of l. -/
def dashHeadOK (l : List Char) : Prop :=
  ∀ cs, l = '-' :: cs → cs.takeWhile nonWS = []

theorem prefix_head_eq (p l : List Char) (hp : p <+: l) (d : Char)
    (hd : p.head? = some d) : l.head? = some d := by
  have h0 := head_drop_eq_of_prefix p l hp 0 d (by rwa [List.drop_zero])
  rwa [List.drop_zero] at h0

theorem takeWhile_nil_of_prefix (q : Char → Bool) (p l : List Char)
    (hp : p <+: l) (h : l.takeWhile q = []) : p.takeWhile q = [] := by
  by_contra hne
  obtain ⟨e, he, hqe⟩ := (takeWhile_ne_nil_head q p).mp hne
  exact absurd h
    ((takeWhile_ne_nil_head q l).mpr ⟨e, prefix_head_eq p l hp e he, hqe⟩)

theorem dropWhile_nonWS_wsnil (l : List Char) :
    l.dropWhile nonWS = [] ∨
      ∃ d ds, l.dropWhile nonWS = d :: ds ∧ jsWS d = true := by
  cases h : l.dropWhile nonWS with
  | nil => exact Or.inl rfl
  | cons d ds =>
    have hd := dropWhile_head_false nonWS l d ds h
    refine Or.inr ⟨d, ds, rfl, ?_⟩
    simpa [nonWS] using hd

theorem noDashW_suffix : ∀ (l s : List Char), s <:+ l → NoDashW l →
    NoDashW s := by
  intro l
  induction l with
  | nil =>
    intro s hs _
    rw [List.suffix_nil.mp hs]
    trivial
  | cons c cs ih =>
    intro s hs h
    rcases List.suffix_cons_iff.mp hs with heq | htl
    · rw [heq]; exact h
    · exact ih s htl h.2

theorem noDashW_prefix : ∀ (p l : List Char), p <+: l → NoDashW l →
    NoDashW p := by
  intro p
  induction p with
  | nil => intro l _ _; trivial
  | cons c ps ih =>
    intro l hp h
    cases l with
    | nil => exact absurd (List.prefix_nil.mp hp) (by simp)
    | cons d ls =>
      obtain ⟨hcd, hps⟩ := List.cons_prefix_cons.mp hp
      subst hcd
      refine ⟨?_, ih ls hps h.2⟩
      rintro ⟨hwc, hh, ht⟩
      apply h.1
      refine ⟨hwc, prefix_head_eq ps ls hps '-' hh, ?_⟩
      obtain ⟨e, he, hqe⟩ := (takeWhile_ne_nil_head nonWS ps.tail).mp ht
      have htlp : ps.tail <+: ls.tail := by
        have := prefix_drop_mono ps ls hps 1
        rwa [List.drop_one, List.drop_one] at this
      exact (takeWhile_ne_nil_head nonWS ls.tail).mpr
        ⟨e, prefix_head_eq ps.tail ls.tail htlp e he, hqe⟩

theorem replDash_false_eq_self : ∀ (n : Nat) (l : List Char), l.length ≤ n →
    NoDashW l → replDash false l = l := by
  intro n
  induction n with
  | zero =>
    intro l hl _
    rw [List.eq_nil_of_length_eq_zero (Nat.le_zero.mp hl)]
    exact replDash_nil false
  | succ m ih =>
    intro l hl h
    cases l with
    | nil => exact replDash_nil false
    | cons c cs =>
      simp only [List.length_cons] at hl
      rw [replDash_cons false c cs, if_neg (by simp), if_neg h.1,
        ih cs (by omega) h.2]

theorem replDash_true_eq_self (l : List Char) (h0 : dashHeadOK l)
    (h : NoDashW l) : replDash true l = l := by
  cases l with
  | nil => exact replDash_nil true
  | cons c cs =>
    rw [replDash_cons true c cs]
    rw [if_neg]
    · rw [if_neg h.1, replDash_false_eq_self cs.length cs le_rfl h.2]
    · rintro ⟨-, hc, ht⟩
      exact ht (h0 cs (by rw [hc]))

theorem replDash_false_wsnil : ∀ (n : Nat) (l : List Char), l.length ≤ n →
    (l = [] ∨ ∃ d ds, l = d :: ds ∧ jsWS d = true) →
    (replDash false l = [] ∨
      ∃ d ds, replDash false l = d :: ds ∧ jsWS d = true) := by
  intro n
  induction n with
  | zero =>
    intro l hl _
    rw [List.eq_nil_of_length_eq_zero (Nat.le_zero.mp hl)]
    exact Or.inl (replDash_nil false)
  | succ m ih =>
    intro l hl h
    rcases h with hnil | ⟨d, ds, hdds, hdws⟩
    · rw [hnil]
      exact Or.inl (replDash_nil false)
    · subst hdds
      simp only [List.length_cons] at hl
      rw [replDash_cons false d ds, if_neg (by simp)]
      by_cases h2 : jsWS d ∧ ds.head? = some '-' ∧ ds.tail.takeWhile nonWS ≠ []
      · rw [if_pos h2]
        have hlen : (ds.tail.dropWhile nonWS).length ≤ m := by
          have h1 := dropWhile_length_le nonWS ds.tail
          have h2 := List.length_tail ds
          omega
        exact ih _ hlen (dropWhile_nonWS_wsnil ds.tail)
      · rw [if_neg h2]
        exact Or.inr ⟨d, replDash false ds, rfl, hdws⟩

theorem replDash_false_head_nonws (l : List Char) (e : Char)
    (hh : (replDash false l).head? = some e) (he : jsWS e = false) :
    l.head? = some e := by
  cases l with
  | nil => rw [replDash_nil false] at hh; simp at hh
  | cons c cs =>
    rw [replDash_cons false c cs, if_neg (by simp)] at hh
    by_cases h2 : jsWS c ∧ cs.head? = some '-' ∧ cs.tail.takeWhile nonWS ≠ []
    · rw [if_pos h2] at hh
      rcases replDash_false_wsnil (cs.tail.dropWhile nonWS).length _ le_rfl
        (dropWhile_nonWS_wsnil cs.tail) with hnil | ⟨d, ds, hdds, hdws⟩
      · rw [hnil] at hh; simp at hh
      · rw [hdds] at hh
        simp only [List.head?_cons, Option.some.injEq] at hh
        rw [hh] at hdws
        rw [hdws] at he
        simp at he
    · rw [if_neg h2] at hh
      simpa using hh

theorem replDash_decomp : ∀ (n : Nat) (b : Bool) (l : List Char),
    l.length ≤ n → ∃ a r, replDash b l = a ++ r ∧ a <+: l ∧
      (r = [] ∨ ∃ d ds, r = d :: ds ∧ jsWS d = true) := by
  intro n
  induction n with
  | zero =>
    intro b l hl
    rw [List.eq_nil_of_length_eq_zero (Nat.le_zero.mp hl)]
    exact ⟨[], [], by rw [replDash_nil]; rfl, List.nil_prefix, Or.inl rfl⟩
  | succ m ih =>
    intro b l hl
    cases l with
    | nil => exact ⟨[], [], by rw [replDash_nil]; rfl, List.nil_prefix, Or.inl rfl⟩
    | cons c cs =>
      simp only [List.length_cons] at hl
      rw [replDash_cons b c cs]
      by_cases h1 : b = true ∧ c = '-' ∧ cs.takeWhile nonWS ≠ []
      · rw [if_pos h1]
        refine ⟨[], replDash false (cs.dropWhile nonWS), rfl, List.nil_prefix, ?_⟩
        exact replDash_false_wsnil (cs.dropWhile nonWS).length _ le_rfl
          (dropWhile_nonWS_wsnil cs)
      · rw [if_neg h1]
        by_cases h2 : jsWS c ∧ cs.head? = some '-' ∧ cs.tail.takeWhile nonWS ≠ []
        · rw [if_pos h2]
          refine ⟨[], replDash false (cs.tail.dropWhile nonWS), rfl,
            List.nil_prefix, ?_⟩
          exact replDash_false_wsnil (cs.tail.dropWhile nonWS).length _ le_rfl
            (dropWhile_nonWS_wsnil cs.tail)
        · rw [if_neg h2]
          obtain ⟨a, r, heq, hpre, hr⟩ := ih false cs (by omega)
          exact ⟨c :: a, r, by rw [heq, List.cons_append],
            List.cons_prefix_cons.mpr ⟨rfl, hpre⟩, hr⟩

theorem noDashW_replDash : ∀ (n : Nat) (b : Bool) (l : List Char),
    l.length ≤ n → NoDashW (replDash b l) := by
  intro n
  induction n with
  | zero =>
    intro b l hl
    rw [List.eq_nil_of_length_eq_zero (Nat.le_zero.mp hl), replDash_nil]
    trivial
  | succ m ih =>
    intro b l hl
    cases l with
    | nil => rw [replDash_nil]; trivial
    | cons c cs =>
      simp only [List.length_cons] at hl
      rw [replDash_cons b c cs]
      by_cases h1 : b = true ∧ c = '-' ∧ cs.takeWhile nonWS ≠ []
      · rw [if_pos h1]
        have hlen : (cs.dropWhile nonWS).length ≤ m := by
          have := dropWhile_length_le nonWS cs
          omega
        exact ih false _ hlen
      · rw [if_neg h1]
        by_cases h2 : jsWS c ∧ cs.head? = some '-' ∧ cs.tail.takeWhile nonWS ≠ []
        · rw [if_pos h2]
          have hlen : (cs.tail.dropWhile nonWS).length ≤ m := by
            have ha := dropWhile_length_le nonWS cs.tail
            have hb := List.length_tail cs
            omega
          exact ih false _ hlen
        · rw [if_neg h2]
          refine ⟨?_, ih false cs (by omega)⟩
          rintro ⟨hwc, hh, ht⟩
          apply h2
          have hdnw : jsWS '-' = false := by decide
          have hcs_head : cs.head? = some '-' :=
            replDash_false_head_nonws cs '-' hh hdnw
          cases cs with
          | nil => simp at hcs_head
          | cons d ds =>
            simp only [List.head?_cons, Option.some.injEq] at hcs_head
            subst hcs_head
            refine ⟨hwc, by simp, ?_⟩
            rw [replDash_cons false '-' ds, if_neg (by simp),
              if_neg (by rintro ⟨hw, -, -⟩; rw [hdnw] at hw; simp at hw)] at ht
            simp only [List.tail_cons] at ht ⊢
            obtain ⟨e, he, hqe⟩ := (takeWhile_ne_nil_head nonWS _).mp ht
            have hds_head : ds.head? = some e :=
              replDash_false_head_nonws ds e he (by simpa [nonWS] using hqe)
            exact (takeWhile_ne_nil_head nonWS ds).mpr ⟨e, hds_head, hqe⟩

theorem dashHeadOK_replDash (l : List Char) :
    dashHeadOK (replDash true l) := by
  cases l with
  | nil =>
    rw [replDash_nil]
    intro cs h
    simp at h
  | cons c cs =>
    rw [replDash_cons true c cs]
    by_cases h1b : c = '-' ∧ cs.takeWhile nonWS ≠ []
    · rw [if_pos ⟨rfl, h1b.1, h1b.2⟩]
      intro w hw
      rcases replDash_false_wsnil (cs.dropWhile nonWS).length _ le_rfl
        (dropWhile_nonWS_wsnil cs) with hnil | ⟨d, ds, hdds, hdws⟩
      · rw [hnil] at hw; simp at hw
      · rw [hdds] at hw
        injection hw with hd _
        rw [hd] at hdws
        exact absurd hdws (by decide)
    · rw [if_neg (by rintro ⟨-, hc, ht⟩; exact h1b ⟨hc, ht⟩)]
      by_cases h2 : jsWS c ∧ cs.head? = some '-' ∧ cs.tail.takeWhile nonWS ≠ []
      · rw [if_pos h2]
        intro w hw
        rcases replDash_false_wsnil (cs.tail.dropWhile nonWS).length _ le_rfl
          (dropWhile_nonWS_wsnil cs.tail) with hnil | ⟨d, ds, hdds, hdws⟩
        · rw [hnil] at hw; simp at hw
        · rw [hdds] at hw
          injection hw with hd _
          rw [hd] at hdws
          exact absurd hdws (by decide)
      · rw [if_neg h2]
        intro w hw
        injection hw with hc hw2
        subst hc
        have hcs : cs.takeWhile nonWS = [] := by
          by_contra hne
          exact h1b ⟨rfl, hne⟩
        have hcs_wsnil : cs = [] ∨ ∃ d ds, cs = d :: ds ∧ jsWS d = true := by
          cases cs with
          | nil => exact Or.inl rfl
          | cons d ds =>
            rw [List.takeWhile_cons] at hcs
            by_cases hd : nonWS d
            · rw [if_pos hd] at hcs; simp at hcs
            · exact Or.inr ⟨d, ds, rfl, by simpa [nonWS] using hd⟩
        rw [← hw2]
        by_contra hne
        obtain ⟨e, he, hqe⟩ := (takeWhile_ne_nil_head nonWS _).mp hne
        rcases replDash_false_wsnil cs.length cs le_rfl hcs_wsnil with
          hnil | ⟨d, ds, hdds, hdws⟩
        · rw [hnil] at he; simp at he
        · rw [hdds] at he
          simp only [List.head?_cons, Option.some.injEq] at he
          rw [he] at hdws
          simp [nonWS, hdws] at hqe

-- ─── C2: machinery, part 5: the whitespace collapse pass ────────────

theorem collapseWS_head_nonws (l : List Char) (e : Char)
    (hh : (collapseWS l).head? = some e) (he : jsWS e = false) :
    l.head? = some e := by
  cases l with
  | nil => rw [collapseWS_nil] at hh; simp at hh
  | cons c cs =>
    rw [collapseWS_cons] at hh
    by_cases hc : jsWS c
    · rw [if_pos hc] at hh
      simp only [List.head?_cons, Option.some.injEq] at hh
      rw [← hh] at he
      exact absurd he (by decide)
    · rw [if_neg hc] at hh
      simpa using hh

theorem collapseWS_decomp : ∀ (n : Nat) (l : List Char), l.length ≤ n →
    ∃ a r, collapseWS l = a ++ r ∧ a <+: l ∧
      (r = [] ∨ ∃ d ds, r = d :: ds ∧ jsWS d = true) := by
  intro n
  induction n with
  | zero =>
    intro l hl
    rw [List.eq_nil_of_length_eq_zero (Nat.le_zero.mp hl)]
    exact ⟨[], [], by rw [collapseWS_nil]; rfl, List.nil_prefix, Or.inl rfl⟩
  | succ m ih =>
    intro l hl
    cases l with
    | nil => exact ⟨[], [], by rw [collapseWS_nil]; rfl, List.nil_prefix, Or.inl rfl⟩
    | cons c cs =>
      simp only [List.length_cons] at hl
      rw [collapseWS_cons]
      by_cases hc : jsWS c
      · rw [if_pos hc]
        exact ⟨[], ' ' :: collapseWS (cs.dropWhile jsWS), rfl, List.nil_prefix,
          Or.inr ⟨' ', collapseWS (cs.dropWhile jsWS), rfl, by decide⟩⟩
      · rw [if_neg hc]
        obtain ⟨a, r, heq, hpre, hr⟩ := ih cs (by omega)
        exact ⟨c :: a, r, by rw [heq, List.cons_append],
          List.cons_prefix_cons.mpr ⟨rfl, hpre⟩, hr⟩

theorem lastWS_dashHeadOK : ∀ (n : Nat) (c : Char) (cs : List Char),
    cs.length ≤ n → NoDashW (c :: cs) → jsWS c = true →
    dashHeadOK (cs.dropWhile jsWS) := by
  intro n
  induction n with
  | zero =>
    intro c cs hl _ _
    rw [List.eq_nil_of_length_eq_zero (Nat.le_zero.mp hl)]
    intro w hw
    simp at hw
  | succ m ih =>
    intro c cs hl h hwc
    cases cs with
    | nil =>
      intro w hw
      simp at hw
    | cons d ds =>
      simp only [List.length_cons] at hl
      rw [List.dropWhile_cons]
      by_cases hd : jsWS d
      · rw [if_pos hd]
        exact ih d ds (by omega) h.2 hd
      · rw [if_neg hd]
        intro w hw
        injection hw with h1 h2
        rw [← h2]
        by_contra hne
        exact h.1 ⟨hwc, by rw [h1]; rfl, by simpa using hne⟩

theorem noDashW_collapseWS : ∀ (n : Nat) (l : List Char), l.length ≤ n →
    NoDashW l → NoDashW (collapseWS l) := by
  intro n
  induction n with
  | zero =>
    intro l hl _
    rw [List.eq_nil_of_length_eq_zero (Nat.le_zero.mp hl), collapseWS_nil]
    trivial
  | succ m ih =>
    intro l hl h
    cases l with
    | nil => rw [collapseWS_nil]; trivial
    | cons c cs =>
      simp only [List.length_cons] at hl
      rw [collapseWS_cons]
      by_cases hc : jsWS c
      · rw [if_pos hc]
        have hlen : (cs.dropWhile jsWS).length ≤ m := by
          have := dropWhile_length_le jsWS cs
          omega
        have hsuf : NoDashW (cs.dropWhile jsWS) :=
          noDashW_suffix cs _ (List.dropWhile_suffix jsWS) h.2
        refine ⟨?_, ih _ hlen hsuf⟩
        rintro ⟨-, hh, ht⟩
        have hr_head : (cs.dropWhile jsWS).head? = some '-' :=
          collapseWS_head_nonws _ '-' hh (by decide)
        cases hr : cs.dropWhile jsWS with
        | nil => rw [hr] at hr_head; simp at hr_head
        | cons d ds =>
          rw [hr] at hr_head
          simp only [List.head?_cons, Option.some.injEq] at hr_head
          subst hr_head
          rw [hr, collapseWS_cons, if_neg (by decide : ¬jsWS '-' = true)] at ht
          simp only [List.tail_cons] at ht
          obtain ⟨e, he, hqe⟩ := (takeWhile_ne_nil_head nonWS _).mp ht
          have hds_head : ds.head? = some e :=
            collapseWS_head_nonws ds e he (by simpa [nonWS] using hqe)
          have hok := lastWS_dashHeadOK cs.length c cs le_rfl h hc
          exact ((takeWhile_ne_nil_head nonWS ds).mpr ⟨e, hds_head, hqe⟩)
            (hok ds hr)
      · rw [if_neg hc]
        refine ⟨?_, ih cs (by omega) h.2⟩
        rintro ⟨hwc, -, -⟩
        exact hc hwc

theorem dashHeadOK_collapseWS (l : List Char) (h : dashHeadOK l) :
    dashHeadOK (collapseWS l) := by
  cases l with
  | nil =>
    rw [collapseWS_nil]
    intro w hw
    simp at hw
  | cons c cs =>
    rw [collapseWS_cons]
    by_cases hc : jsWS c
    · rw [if_pos hc]
      intro w hw
      injection hw with h1 _
      exact absurd h1 (by decide)
    · rw [if_neg hc]
      intro w hw
      injection hw with h1 h2
      subst h1
      have hcs : cs.takeWhile nonWS = [] := h cs rfl
      rw [← h2]
      by_contra hne
      obtain ⟨e, he, hqe⟩ := (takeWhile_ne_nil_head nonWS _).mp hne
      have hcs_head : cs.head? = some e :=
        collapseWS_head_nonws cs e he (by simpa [nonWS] using hqe)
      exact absurd hcs
        ((takeWhile_ne_nil_head nonWS cs).mpr ⟨e, hcs_head, hqe⟩)

-- ─── C2: machinery, part 6: trim closures ───────────────────────────

theorem dashHeadOK_of_prefix (p l : List Char) (hp : p <+: l)
    (h : dashHeadOK l) : dashHeadOK p := by
  intro w hw
  subst hw
  cases l with
  | nil => exact absurd (List.prefix_nil.mp hp) (by simp)
  | cons d ls =>
    obtain ⟨hd, hwl⟩ := List.cons_prefix_cons.mp hp
    have hls : ls.takeWhile nonWS = [] := h ls (by rw [hd])
    exact takeWhile_nil_of_prefix nonWS w ls hwl hls

theorem noDashW_jsTrim (l : List Char) (h : NoDashW l) :
    NoDashW (jsTrim l) := by
  obtain ⟨s, t, hst⟩ := jsTrim_infix l
  have hsuf : jsTrim l ++ t <:+ l := ⟨s, by rw [← List.append_assoc, hst]⟩
  exact noDashW_prefix _ _ (List.prefix_append _ _)
    (noDashW_suffix l _ hsuf h)

theorem dashHeadOK_jsTrim (l : List Char) (h0 : dashHeadOK l)
    (h : NoDashW l) : dashHeadOK (jsTrim l) := by
  apply dashHeadOK_of_prefix _ _ ( jsTrim_prefix l)
  cases l with
  | nil =>
    simp only [List.dropWhile_nil]
    intro w hw
    simp at hw
  | cons c cs =>
    rw [List.dropWhile_cons]
    by_cases hc : jsWS c
    · rw [if_pos hc]
      exact lastWS_dashHeadOK cs.length c cs le_rfl h hc
    · rw [if_neg hc]
      exact h0

theorem tokFree_jsTrim (tok l : List Char) (h : TokFree tok l) :
    TokFree tok (jsTrim l) := by
  obtain ⟨s, t, hst⟩ := jsTrim_infix l
  have hsuf : jsTrim l ++ t <:+ l := ⟨s, by rw [← List.append_assoc, hst]⟩
  exact tokFree_prefix tok _ _ (List.prefix_append _ _)
    (tokFree_suffix tok _ l hsuf h)

-- ─── C2: machinery, part 7: TokFree through dash and collapse ───────

theorem tokFree_replDash (tok : List Char) (htokne : tok ≠ [])
    (htok : ∀ x ∈ tok, jsWS x = false) :
    ∀ (n : Nat) (b : Bool) (l : List Char), l.length ≤ n → TokFree tok l →
      TokFree tok (replDash b l) := by
  intro n
  induction n with
  | zero =>
    intro b l hl _
    rw [List.eq_nil_of_length_eq_zero (Nat.le_zero.mp hl), replDash_nil]
    exact tokFree_nil tok
  | succ m ih =>
    intro b l hl hfree
    cases l with
    | nil => rw [replDash_nil]; exact tokFree_nil tok
    | cons c cs =>
      simp only [List.length_cons] at hl
      rw [replDash_cons b c cs]
      by_cases h1 : b = true ∧ c = '-' ∧ cs.takeWhile nonWS ≠ []
      · rw [if_pos h1]
        have hlen : (cs.dropWhile nonWS).length ≤ m := by
          have := dropWhile_length_le nonWS cs
          omega
        exact ih false _ hlen (tokFree_suffix tok _ _
          ((List.dropWhile_suffix nonWS).trans (List.suffix_cons c cs)) hfree)
      · rw [if_neg h1]
        by_cases h2 : jsWS c ∧ cs.head? = some '-' ∧ cs.tail.takeWhile nonWS ≠ []
        · rw [if_pos h2]
          have hlen : (cs.tail.dropWhile nonWS).length ≤ m := by
            have ha := dropWhile_length_le nonWS cs.tail
            have hb := List.length_tail cs
            omega
          exact ih false _ hlen (tokFree_suffix tok _ _
            (((List.dropWhile_suffix nonWS).trans (List.tail_suffix cs)).trans
              (List.suffix_cons c cs)) hfree)
        · rw [if_neg h2]
          obtain ⟨h0, htail⟩ := (tokFree_cons_iff tok c cs).mp hfree
          rw [tokFree_cons_iff]
          refine ⟨?_, ih false cs (by omega) htail⟩
          obtain ⟨a, r, heq, hpre, hr⟩ :=
            replDash_decomp cs.length false cs le_rfl
          rw [heq]
          exact tokMatchAt_none_glue tok c cs a r htokne htok h0 hpre hr

theorem tokFree_collapseWS (tok : List Char) (htokne : tok ≠ [])
    (htok : ∀ x ∈ tok, jsWS x = false) :
    ∀ (n : Nat) (l : List Char), l.length ≤ n → TokFree tok l →
      TokFree tok (collapseWS l) := by
  intro n
  induction n with
  | zero =>
    intro l hl _
    rw [List.eq_nil_of_length_eq_zero (Nat.le_zero.mp hl), collapseWS_nil]
    exact tokFree_nil tok
  | succ m ih =>
    intro l hl hfree
    cases l with
    | nil => rw [collapseWS_nil]; exact tokFree_nil tok
    | cons c cs =>
      simp only [List.length_cons] at hl
      rw [collapseWS_cons]
      by_cases hc : jsWS c
      · rw [if_pos hc]
        have hlen : (cs.dropWhile jsWS).length ≤ m := by
          have := dropWhile_length_le jsWS cs
          omega
        rw [tokFree_cons_iff]
        refine ⟨?_, ih _ hlen (tokFree_suffix tok _ _
          ((List.dropWhile_suffix jsWS).trans (List.suffix_cons c cs)) hfree)⟩
        exact tokMatchAt_ws_head tok ' ' _
          (fun t0 ts h => htok t0 (by rw [h]; exact List.mem_cons_self t0 ts))
          htokne (by decide)
      · rw [if_neg hc]
        obtain ⟨h0, htail⟩ := (tokFree_cons_iff tok c cs).mp hfree
        rw [tokFree_cons_iff]
        refine ⟨?_, ih cs (by omega) htail⟩
        obtain ⟨a, r, heq, hpre, hr⟩ := collapseWS_decomp cs.length cs le_rfl
        rw [heq]
        exact tokMatchAt_none_glue tok c cs a r htokne htok h0 hpre hr

-- ─── C2: machinery, part 8: single-spacing ──────────────────────────

/-- Every whitespace character is a plain space and no two whitespace
characters are adjacent: the fixed points of the \s+ collapse pass. -/
def OneSp : List Char → Prop
  | [] => True
  | c :: cs =>
    (jsWS c = true → c = ' ' ∧ ∀ d, cs.head? = some d → jsWS d = false) ∧
      OneSp cs

theorem collapseWS_eq_self : ∀ (n : Nat) (l : List Char), l.length ≤ n →
    OneSp l → collapseWS l = l := by
  intro n
  induction n with
  | zero =>
    intro l hl _
    rw [List.eq_nil_of_length_eq_zero (Nat.le_zero.mp hl)]
    exact collapseWS_nil
  | succ m ih =>
    intro l hl h
    cases l with
    | nil => exact collapseWS_nil
    | cons c cs =>
      simp only [List.length_cons] at hl
      rw [collapseWS_cons]
      by_cases hc : jsWS c
      · rw [if_pos hc]
        obtain ⟨hsp, hnext⟩ := h.1 hc
        have hdrop : cs.dropWhile jsWS = cs := by
          cases cs with
          | nil => rfl
          | cons d ds =>
            rw [List.dropWhile_cons, if_neg]
            rw [hnext d rfl]
            simp
        rw [hdrop, ih cs (by omega) h.2, hsp]
      · rw [if_neg hc, ih cs (by omega) h.2]

theorem oneSp_collapseWS : ∀ (n : Nat) (l : List Char), l.length ≤ n →
    OneSp (collapseWS l) := by
  intro n
  induction n with
  | zero =>
    intro l hl
    rw [List.eq_nil_of_length_eq_zero (Nat.le_zero.mp hl), collapseWS_nil]
    trivial
  | succ m ih =>
    intro l hl
    cases l with
    | nil => rw [collapseWS_nil]; trivial
    | cons c cs =>
      simp only [List.length_cons] at hl
      rw [collapseWS_cons]
      by_cases hc : jsWS c
      · rw [if_pos hc]
        have hlen : (cs.dropWhile jsWS).length ≤ m := by
          have := dropWhile_length_le jsWS cs
          omega
        refine ⟨fun _ => ⟨rfl, ?_⟩, ih _ hlen⟩
        intro d hd
        cases hr : cs.dropWhile jsWS with
        | nil =>
          rw [hr, collapseWS_nil] at hd
          simp at hd
        | cons e es =>
          have hews : jsWS e = false := by
            have := dropWhile_head_false jsWS cs e es hr
            simpa using this
          rw [hr, collapseWS_cons, if_neg (by simp [hews])] at hd
          simp only [List.head?_cons, Option.some.injEq] at hd
          rw [← hd]
          exact hews
      · rw [if_neg hc]
        exact ⟨fun hcw => absurd hcw hc, ih cs (by omega)⟩

theorem oneSp_suffix : ∀ (l s : List Char), s <:+ l → OneSp l → OneSp s := by
  intro l
  induction l with
  | nil =>
    intro s hs _
    rw [List.suffix_nil.mp hs]
    trivial
  | cons c cs ih =>
    intro s hs h
    rcases List.suffix_cons_iff.mp hs with heq | htl
    · rw [heq]; exact h
    · exact ih s htl h.2

theorem oneSp_prefix : ∀ (p l : List Char), p <+: l → OneSp l → OneSp p := by
  intro p
  induction p with
  | nil => intro l _ _; trivial
  | cons c ps ih =>
    intro l hp h
    cases l with
    | nil => exact absurd (List.prefix_nil.mp hp) (by simp)
    | cons d ls =>
      obtain ⟨hcd, hps⟩ := List.cons_prefix_cons.mp hp
      subst hcd
      refine ⟨fun hwc => ?_, ih ls hps h.2⟩
      obtain ⟨hsp, hnext⟩ := h.1 hwc
      exact ⟨hsp, fun d hd => hnext d (prefix_head_eq ps ls hps d hd)⟩

theorem oneSp_jsTrim (l : List Char) (h : OneSp l) : OneSp (jsTrim l) := by
  obtain ⟨s, t, hst⟩ := jsTrim_infix l
  have hsuf : jsTrim l ++ t <:+ l := ⟨s, by rw [← List.append_assoc, hst]⟩
  exact oneSp_prefix _ _ (List.prefix_append _ _) (oneSp_suffix l _ hsuf h)

/-- A string with the nine fixed-point properties is unchanged by
stripOperators: its own output enjoys them all. -/
theorem stripOperators_fixed (o : List Char)
    (hA : TokFree afterTok o) (hB : TokFree beforeTok o)
    (hI : TokFree intitleTok o) (hC : TokFree channelTok o)
    (hH : TokFree hashTok o) (hQ : '"' ∉ o)
    (hD0 : dashHeadOK o) (hDW : NoDashW o) (hS : OneSp o)
    (hT : jsTrim o = o) :
    stripOperators o = o := by
  unfold stripOperators
  rw [replTok_eq_self afterTok o.length o le_rfl hA,
    replTok_eq_self beforeTok o.length o le_rfl hB,
    replTok_eq_self intitleTok o.length o le_rfl hI,
    replQuoted_eq_self o.length o le_rfl hQ,
    replTok_eq_self channelTok o.length o le_rfl hC,
    replTok_eq_self hashTok o.length o le_rfl hH,
    replDash_true_eq_self o hD0 hDW,
    collapseWS_eq_self o.length o le_rfl hS]
  exact hT

-- ─── C2: the claim, its counterexample and the amended theorem ──────

/-- C2 (counterexample): stripOperators is not idempotent.  On
"aft\"x\"er:y" the quote pass of the first application deletes "x" and
glues aft and er:y into after:y, which the second application then
removes entirely. -/
theorem c2_counterexample :
    stripOperators (stripOperators "aft\"x\"er:y".data) ≠
      stripOperators "aft\"x\"er:y".data := by decide

/-- All nine fixed-point properties hold of the stripOperators pipeline
output when the input has no double quote, so a second application of
stripOperators changes nothing. -/
theorem strip_stage_fix (s q1 q2 q3 q5 q6 q7 q8 o : List Char)
    (hq : '"' ∉ s)
    (hq1 : q1 = replTok afterTok s)
    (hq2 : q2 = replTok beforeTok q1)
    (hq3 : q3 = replTok intitleTok q2)
    (hq5 : q5 = replTok channelTok (replQuoted q3))
    (hq6 : q6 = replTok hashTok q5)
    (hq7 : q7 = replDash true q6)
    (hq8 : q8 = collapseWS q7)
    (ho : o = jsTrim q8) :
    stripOperators o = o := by
  have hAne : afterTok ≠ [] := by decide
  have hAws : ∀ x ∈ afterTok, jsWS x = false := by decide
  have hBne : beforeTok ≠ [] := by decide
  have hBws : ∀ x ∈ beforeTok, jsWS x = false := by decide
  have hIne : intitleTok ≠ [] := by decide
  have hIws : ∀ x ∈ intitleTok, jsWS x = false := by decide
  have hCne : channelTok ≠ [] := by decide
  have hCws : ∀ x ∈ channelTok, jsWS x = false := by decide
  have hHne : hashTok ≠ [] := by decide
  have hHws : ∀ x ∈ hashTok, jsWS x = false := by decide
  have hq3mem : ∀ x ∈ q3, x ∈ s := by
    intro x hx
    rw [hq3] at hx
    have h2 := mem_replTok intitleTok q2.length q2 le_rfl x hx
    rw [hq2] at h2
    have h1 := mem_replTok beforeTok q1.length q1 le_rfl x h2
    rw [hq1] at h1
    exact mem_replTok afterTok s.length s le_rfl x h1
  have hq3q : '"' ∉ q3 := fun h => hq (hq3mem _ h)
  have hq5b : q5 = replTok channelTok q3 := by
    rw [hq5, replQuoted_eq_self q3.length q3 le_rfl hq3q]
  -- token-freeness for after:
  have tA1 : TokFree afterTok q1 := by
    rw [hq1]; exact tokFree_replTok_self afterTok hAne hAws s.length s le_rfl
  have tA2 : TokFree afterTok q2 := by
    rw [hq2]
    exact tokFree_replTok afterTok beforeTok hAne hAws hBne hBws
      q1.length q1 le_rfl tA1
  have tA3 : TokFree afterTok q3 := by
    rw [hq3]
    exact tokFree_replTok afterTok intitleTok hAne hAws hIne hIws
      q2.length q2 le_rfl tA2
  have tA5 : TokFree afterTok q5 := by
    rw [hq5b]
    exact tokFree_replTok afterTok channelTok hAne hAws hCne hCws
      q3.length q3 le_rfl tA3
  have tA6 : TokFree afterTok q6 := by
    rw [hq6]
    exact tokFree_replTok afterTok hashTok hAne hAws hHne hHws
      q5.length q5 le_rfl tA5
  have tA7 : TokFree afterTok q7 := by
    rw [hq7]
    exact tokFree_replDash afterTok hAne hAws q6.length true q6 le_rfl tA6
  have tA8 : TokFree afterTok q8 := by
    rw [hq8]
    exact tokFree_collapseWS afterTok hAne hAws q7.length q7 le_rfl tA7
  have tAo : TokFree afterTok o := by
    rw [ho]; exact tokFree_jsTrim afterTok q8 tA8
  -- token-freeness for before:
  have tB2 : TokFree beforeTok q2 := by
    rw [hq2]; exact tokFree_replTok_self beforeTok hBne hBws q1.length q1 le_rfl
  have tB3 : TokFree beforeTok q3 := by
    rw [hq3]
    exact tokFree_replTok beforeTok intitleTok hBne hBws hIne hIws
      q2.length q2 le_rfl tB2
  have tB5 : TokFree beforeTok q5 := by
    rw [hq5b]
    exact tokFree_replTok beforeTok channelTok hBne hBws hCne hCws
      q3.length q3 le_rfl tB3
  have tB6 : TokFree beforeTok q6 := by
    rw [hq6]
    exact tokFree_replTok beforeTok hashTok hBne hBws hHne hHws
      q5.length q5 le_rfl tB5
  have tB7 : TokFree beforeTok q7 := by
    rw [hq7]
    exact tokFree_replDash beforeTok hBne hBws q6.length true q6 le_rfl tB6
  have tB8 : TokFree beforeTok q8 := by
    rw [hq8]
    exact tokFree_collapseWS beforeTok hBne hBws q7.length q7 le_rfl tB7
  have tBo : TokFree beforeTok o := by
    rw [ho]; exact tokFree_jsTrim beforeTok q8 tB8
  -- token-freeness for intitle:
  have tI3 : TokFree intitleTok q3 := by
    rw [hq3]
    exact tokFree_replTok_self intitleTok hIne hIws q2.length q2 le_rfl
  have tI5 : TokFree intitleTok q5 := by
    rw [hq5b]
    exact tokFree_replTok intitleTok channelTok hIne hIws hCne hCws
      q3.length q3 le_rfl tI3
  have tI6 : TokFree intitleTok q6 := by
    rw [hq6]
    exact tokFree_replTok intitleTok hashTok hIne hIws hHne hHws
      q5.length q5 le_rfl tI5
  have tI7 : TokFree intitleTok q7 := by
    rw [hq7]
    exact tokFree_replDash intitleTok hIne hIws q6.length true q6 le_rfl tI6
  have tI8 : TokFree intitleTok q8 := by
    rw [hq8]
    exact tokFree_collapseWS intitleTok hIne hIws q7.length q7 le_rfl tI7
  have tIo : TokFree intitleTok o := by
    rw [ho]; exact tokFree_jsTrim intitleTok q8 tI8
  -- token-freeness for channel:
  have tC5 : TokFree channelTok q5 := by
    rw [hq5b]
    exact tokFree_replTok_self channelTok hCne hCws q3.length q3 le_rfl
  have tC6 : TokFree channelTok q6 := by
    rw [hq6]
    exact tokFree_replTok channelTok hashTok hCne hCws hHne hHws
      q5.length q5 le_rfl tC5
  have tC7 : TokFree channelTok q7 := by
    rw [hq7]
    exact tokFree_replDash channelTok hCne hCws q6.length true q6 le_rfl tC6
  have tC8 : TokFree channelTok q8 := by
    rw [hq8]
    exact tokFree_collapseWS channelTok hCne hCws q7.length q7 le_rfl tC7
  have tCo : TokFree channelTok o := by
    rw [ho]; exact tokFree_jsTrim channelTok q8 tC8
  -- token-freeness for the hashtag token
  have tH6 : TokFree hashTok q6 := by
    rw [hq6]
    exact tokFree_replTok_self hashTok hHne hHws q5.length q5 le_rfl
  have tH7 : TokFree hashTok q7 := by
    rw [hq7]
    exact tokFree_replDash hashTok hHne hHws q6.length true q6 le_rfl tH6
  have tH8 : TokFree hashTok q8 := by
    rw [hq8]
    exact tokFree_collapseWS hashTok hHne hHws q7.length q7 le_rfl tH7
  have tHo : TokFree hashTok o := by
    rw [ho]; exact tokFree_jsTrim hashTok q8 tH8
  -- dash-freeness
  have dW7 : NoDashW q7 := by
    rw [hq7]; exact noDashW_replDash q6.length true q6 le_rfl
  have dH7 : dashHeadOK q7 := by
    rw [hq7]; exact dashHeadOK_replDash q6
  have dW8 : NoDashW q8 := by
    rw [hq8]; exact noDashW_collapseWS q7.length q7 le_rfl dW7
  have dH8 : dashHeadOK q8 := by
    rw [hq8]; exact dashHeadOK_collapseWS q7 dH7
  have dWo : NoDashW o := by
    rw [ho]; exact noDashW_jsTrim q8 dW8
  have dHo : dashHeadOK o := by
    rw [ho]; exact dashHeadOK_jsTrim q8 dH8 dW8
  -- single-spacing
  have sp8 : OneSp q8 := by
    rw [hq8]; exact oneSp_collapseWS q7.length q7 le_rfl
  have spo : OneSp o := by
    rw [ho]; exact oneSp_jsTrim q8 sp8
  -- quote-freeness of the output
  have hqo : '"' ∉ o := by
    intro hx
    rw [ho] at hx
    have h8 : '"' ∈ q8 := mem_jsTrim q8 '"' hx
    rw [hq8] at h8
    rcases mem_collapseWS q7.length q7 le_rfl '"' h8 with h7 | hsp
    · rw [hq7] at h7
      have h6 := mem_replDash q6.length true q6 le_rfl '"' h7
      rw [hq6] at h6
      have h5 := mem_replTok hashTok q5.length q5 le_rfl '"' h6
      rw [hq5b] at h5
      have h3 := mem_replTok channelTok q3.length q3 le_rfl '"' h5
      exact hq3q h3
    · exact absurd hsp (by decide)
  -- trim stability
  have hTo : jsTrim o = o := by
    rw [ho]; exact jsTrim_idem q8
  exact stripOperators_fixed o tAo tBo tIo tCo tHo hqo dHo dWo spo hTo

/-- C2 (amended): on double-quote-free inputs stripOperators is
idempotent: each removal pass of the second application finds nothing
left to remove in the output of the first. -/
theorem c2_strip_idempotent_amended (s : List Char) (hq : '"' ∉ s) :
    stripOperators (stripOperators s) = stripOperators s :=
  strip_stage_fix s (replTok afterTok s)
    (replTok beforeTok (replTok afterTok s))
    (replTok intitleTok (replTok beforeTok (replTok afterTok s)))
    (replTok channelTok (replQuoted (replTok intitleTok (replTok beforeTok
      (replTok afterTok s)))))
    (replTok hashTok (replTok channelTok (replQuoted (replTok intitleTok
      (replTok beforeTok (replTok afterTok s))))))
    (replDash true (replTok hashTok (replTok channelTok (replQuoted
      (replTok intitleTok (replTok beforeTok (replTok afterTok s)))))))
    (collapseWS (replDash true (replTok hashTok (replTok channelTok
      (replQuoted (replTok intitleTok (replTok beforeTok
        (replTok afterTok s))))))))
    (jsTrim (collapseWS (replDash true (replTok hashTok (replTok channelTok
      (replQuoted (replTok intitleTok (replTok beforeTok
        (replTok afterTok s)))))))))
    hq rfl rfl rfl rfl rfl rfl rfl rfl

/-- C2 (witness): the amended idempotence applied to a concrete
quote-free query. -/
theorem c2_strip_idempotent_amended_witness :
    '"' ∉ "after:2024 cats -dogs".data ∧
      stripOperators (stripOperators "after:2024 cats -dogs".data) =
        stripOperators "after:2024 cats -dogs".data :=
  ⟨by decide, c2_strip_idempotent_amended "after:2024 cats -dogs".data
    (by decide)⟩
